import Mathlib

/-!
Shallow embedding of the Sawyer address-map container, translated from
src/sawyer/AddressMap.h, src/sawyer/MappedBuffer.h and src/sawyer/NullBuffer.h.

Conventions of the embedding:

* Addresses, buffer offsets and counts (the `A` template parameter, an
  unsigned integral type) are modelled as `Nat`; none of the verified claims
  concerns wrap-around at the top of the address space.
* Accessibility flag words (C++ `unsigned`, 32 bits) are modelled as `Nat`;
  the C++ bitwise complement `~has` is modelled as `2^32 - 1 - has`, which
  flips exactly the low 32 bits for any `has < 2^32`.
* Values (the `T` template parameter) are an arbitrary type `V`.
* Buffers are reference counted in C++ and compared by object identity in the
  merge policy; the embedding identifies a buffer by a `Nat` identity and
  keeps buffer contents in a separate store indexed by that identity.
* `Interval<A>` and the node order of `IntervalMap` come from headers that are
  not part of the sources (sawyer/Interval.h, sawyer/IntervalMap.h); those
  parts are modelled from the spec, as marked on the definitions below.
-/

namespace Sawyer

/-- Modelled from the spec: the missing `Interval<A>` class (sawyer/Interval.h)
is a closed range `[lower, upper]` over the unsigned address domain with a
canonical empty interval; `lower ≤ upper` holds for non-empty intervals. -/
inductive Intv : Type where
  | emp : Intv
  | ivl : Nat → Nat → Intv
deriving DecidableEq, Repr

namespace Intv

/-- Modelled from the spec: emptiness test of an interval. -/
def isEmpty : Intv → Bool
  | .emp => true
  | .ivl _ _ => false

/-- Modelled from the spec: lower bound of an interval (0 for the empty one). -/
def lower : Intv → Nat
  | .emp => 0
  | .ivl lo _ => lo

/-- Modelled from the spec: upper bound of an interval (0 for the empty one). -/
def upper : Intv → Nat
  | .emp => 0
  | .ivl _ hi => hi

/-- Modelled from the spec: number of addresses in an interval. -/
def size : Intv → Nat
  | .emp => 0
  | .ivl lo hi => hi + 1 - lo

/-- Modelled from the spec: membership of an address in an interval. -/
def contains : Intv → Nat → Bool
  | .emp, _ => false
  | .ivl lo hi, a => decide (lo ≤ a) && decide (a ≤ hi)

/-- Modelled from the spec: `Interval::baseSize(lo, n)` is the interval of `n`
addresses starting at `lo` (empty when `n = 0`). -/
def baseSize (lo n : Nat) : Intv :=
  if n = 0 then .emp else .ivl lo (lo + n - 1)

/-- Modelled from the spec: intersection of two closed intervals. -/
def intersection : Intv → Intv → Intv
  | .emp, _ => .emp
  | .ivl _ _, .emp => .emp
  | .ivl a b, .ivl c d => if max a c ≤ min b d then .ivl (max a c) (min b d) else .emp

/-- Modelled from the spec: convex hull (smallest interval containing both). -/
def hull : Intv → Intv → Intv
  | .emp, y => y
  | .ivl a b, .emp => .ivl a b
  | .ivl a b, .ivl c d => .ivl (min a c) (max b d)

end Intv

/-- The payload stored at one interval of the map: `AddressSegment<A,T>` of
sawyer/AddressSegment.h (not among the sources), modelled from the spec as a
buffer reference (identity), a starting offset inside that buffer, and an
accessibility flag word. -/
structure Segment where
  buffer : Nat
  offset : Nat
  accessibility : Nat
deriving DecidableEq, Repr

/-- One node of the interval map: an address interval paired with a segment. -/
structure MapNode where
  key : Intv
  val : Segment
deriving DecidableEq, Repr

/-- `AddressMap::READABLE` (src/sawyer/AddressMap.h:118). -/
def READABLE : Nat := 4

/-- `AddressMap::WRITABLE` (src/sawyer/AddressMap.h:119). -/
def WRITABLE : Nat := 2

/-- `AddressMap::EXECUTABLE` (src/sawyer/AddressMap.h:120). -/
def EXECUTABLE : Nat := 1

/-- `AddressMap::isAccessAllowed` (src/sawyer/AddressMap.h:266-268):
`(has & required)==required && (~has & prohibited)==prohibited`, with the
32-bit complement written as subtraction from the all-ones word. -/
def isAccessAllowed (has required prohibited : Nat) : Bool :=
  (Nat.land has required == required) &&
  (Nat.land (2 ^ 32 - 1 - has) prohibited == prohibited)

/-- Well-formedness of one node: a non-empty interval with ordered bounds. -/
def nodeWF (n : MapNode) : Prop :=
  n.key.isEmpty = false ∧ n.key.lower ≤ n.key.upper

instance (n : MapNode) : Decidable (nodeWF n) :=
  inferInstanceAs (Decidable (_ ∧ _))

/-- Modelled from the spec: the `IntervalMap` state (sawyer/IntervalMap.h is
not among the sources) is a list of nodes whose non-empty intervals are
pairwise disjoint and sorted in ascending address order. -/
def mapWF (m : List MapNode) : Prop :=
  (∀ n ∈ m, nodeWF n) ∧ m.Pairwise (fun x y => x.key.upper < y.key.lower)

/-- Modelled from the spec: `IntervalMap::find(a)` returns the node containing
address `a` (or the end iterator); iterating `++` from it yields the later
nodes in ascending order.  On the sorted node list this is exactly the suffix
starting at the first node whose interval contains `a`. -/
def findFrom (m : List MapNode) (a : Nat) : List MapNode :=
  m.dropWhile (fun n => !(n.key.contains a))

/-- The interface a segment's buffer offers to the map's read/write loops
(`Buffer<A,T>` of sawyer/Buffer.h, not among the sources; modelled from the
spec).  `readB s bid off n` returns the transfer count together with the
values the buffer deposits in the destination; `writeB s bid off n vals`
returns the transfer count and the updated store. -/
structure BufferOps (V S : Type) where
  readB : S → Nat → Nat → Nat → Nat × List V
  writeB : S → Nat → Nat → Nat → List V → Nat × S

/-- The loop body of `AddressMap::read` (src/sawyer/AddressMap.h:185-197),
iterating over the node suffix produced by `find(where.lower())`.  `retval`
is the interval accumulated so far and `acc` the values deposited so far in
the caller's destination. -/
def readLoop {V S : Type} (ops : BufferOps V S) (s : S) (w : Intv) (req proh : Nat) :
    List MapNode → Intv → List V → Intv × List V
  | [], retval, acc => (retval, acc)
  | n :: rest, retval, acc =>
    if !(isAccessAllowed n.val.accessibility req proh) then (retval, acc)
    else
      let part := w.intersection n.key
      if part.isEmpty || (!retval.isEmpty && retval.upper + 1 != part.lower) then (retval, acc)
      else
        let r := ops.readB s n.val.buffer (part.lower - n.key.lower + n.val.offset) part.size
        if r.1 != part.size then (retval.hull (Intv.baseSize part.lower r.1), acc ++ r.2)
        else readLoop ops s w req proh rest (retval.hull part) (acc ++ r.2)

/-- The loop body of `AddressMap::write` (src/sawyer/AddressMap.h:233-245).
`vals` is the remaining source data (the C++ source cursor `buf` advanced by
`nwritten` is modelled by dropping the transferred prefix). -/
def writeLoop {V S : Type} (ops : BufferOps V S) (w : Intv) (req proh : Nat) :
    List MapNode → Intv → List V → S → Intv × S
  | [], retval, _, s => (retval, s)
  | n :: rest, retval, vals, s =>
    if !(isAccessAllowed n.val.accessibility req proh) then (retval, s)
    else
      let part := w.intersection n.key
      if part.isEmpty || (!retval.isEmpty && retval.upper + 1 != part.lower) then (retval, s)
      else
        let r := ops.writeB s n.val.buffer (part.lower - n.key.lower + n.val.offset) part.size vals
        if r.1 != part.size then (retval.hull (Intv.baseSize part.lower r.1), r.2)
        else writeLoop ops w req proh rest (retval.hull part) (vals.drop r.1) r.2

namespace AddressMap

/-- `AddressMap::available` (src/sawyer/AddressMap.h:154-168): note that the
`for` loop of the source starts at `++found`, so the access filter is applied
only from the second node on. -/
def available (m : List MapNode) (start req proh : Nat) : Intv :=
  match findFrom m start with
  | [] => Intv.emp
  | n :: rest => availLoop req proh start rest (Intv.ivl start n.key.upper)
where
  availLoop (req proh start : Nat) : List MapNode → Intv → Intv
  | [], retval => retval
  | n :: rest, retval =>
    if n.key.lower ≠ retval.upper + 1 then retval
    else if !(isAccessAllowed n.val.accessibility req proh) then retval
    else availLoop req proh start rest (Intv.ivl start n.key.upper)

/-- `AddressMap::read` (src/sawyer/AddressMap.h:181-200): returns the interval
of addresses transferred and the values deposited in the destination. -/
def read {V S : Type} (ops : BufferOps V S) (s : S) (m : List MapNode) (w : Intv)
    (req proh : Nat) : Intv × List V :=
  if w.isEmpty then (Intv.emp, [])
  else readLoop ops s w req proh (findFrom m w.lower) Intv.emp []

/-- `AddressMap::write` (src/sawyer/AddressMap.h:229-248): returns the interval
of addresses transferred and the updated buffer store. -/
def write {V S : Type} (ops : BufferOps V S) (s : S) (m : List MapNode) (w : Intv)
    (req proh : Nat) (vals : List V) : Intv × S :=
  if w.isEmpty then (Intv.emp, s)
  else writeLoop ops w req proh (findFrom m w.lower) Intv.emp vals s

end AddressMap

namespace SegmentMergePolicy

/-- `SegmentMergePolicy::merge` (src/sawyer/AddressMap.h:21-29): the interval
arguments only enter through the asserted preconditions; the decision compares
accessibility, buffer identity, and buffer-offset contiguity. -/
def merge (leftInterval : Intv) (leftSegment : Segment) (rightInterval : Intv)
    (rightSegment : Segment) : Bool :=
  leftSegment.accessibility == rightSegment.accessibility &&
  leftSegment.buffer == rightSegment.buffer &&
  leftSegment.offset + leftInterval.size == rightSegment.offset

/-- `SegmentMergePolicy::split` (src/sawyer/AddressMap.h:31-37): copies the
segment and advances the copy's offset by `splitPoint - interval.lower`
(computed as in the source, `offset + splitPoint - lower`, left to right). -/
def split (interval : Intv) (segment : Segment) (splitPoint : Nat) : Segment :=
  { segment with offset := segment.offset + splitPoint - interval.lower }

end SegmentMergePolicy

/-- Modelled from the spec: a faithful in-memory buffer read ("copies up to
`count` values starting at `address`, returns the actual number copied"); the
concrete in-memory backends (StaticBuffer/AllocatingBuffer) are not among the
sources. -/
def bufReadL {V : Type} (data : List V) (off n : Nat) : Nat × List V :=
  (min n (data.length - off), (data.drop off).take (min n (data.length - off)))

/-- Modelled from the spec: a faithful in-memory buffer write, overwriting
`min n (length - off)` values at position `off` and reporting that count. -/
def bufWriteL {V : Type} (data : List V) (off n : Nat) (vals : List V) : Nat × List V :=
  (min n (data.length - off),
   data.take off ++ vals.take (min n (data.length - off)) ++
     data.drop (off + min n (data.length - off)))

/-- Point update of a buffer store at one buffer identity. -/
def updStore {V : Type} (s : Nat → List V) (bid : Nat) (d : List V) : Nat → List V :=
  fun j => if j = bid then d else s j

/-- Modelled from the spec: the buffer store of faithful in-memory buffers,
indexed by buffer identity. -/
def memOps (V : Type) : BufferOps V (Nat → List V) where
  readB s bid off n := bufReadL (s bid) off n
  writeB s bid off n vals :=
    ((bufWriteL (s bid) off n vals).1, updStore s bid (bufWriteL (s bid) off n vals).2)

/-- The intersection of a node's interval with a requested window (the `part`
of the read/write loops, src/sawyer/AddressMap.h:188 and 236). -/
def partOf (w : Intv) (n : MapNode) : Intv := w.intersection n.key

/-- The buffer offset at which a node's part begins
(src/sawyer/AddressMap.h:191 and 239). -/
def partBase (w : Intv) (n : MapNode) : Nat :=
  (partOf w n).lower - n.key.lower + n.val.offset

/-- Two nodes' buffer regions for a window `w` do not overlap: they live in
different buffers or in disjoint offset ranges of the same buffer. -/
def regionsDisjoint (w : Intv) (a b : MapNode) : Prop :=
  a.val.buffer ≠ b.val.buffer ∨
  partBase w a + (partOf w a).size ≤ partBase w b ∨
  partBase w b + (partOf w b).size ≤ partBase w a

instance (w : Intv) (a b : MapNode) : Decidable (regionsDisjoint w a b) :=
  inferInstanceAs (Decidable (_ ∨ _ ∨ _))

/-- The node list covers every address from `c` up to `w.upper` without gaps:
the first node contains `c` and the chain continues from each node's upper
neighbour until `w.upper` is reached. -/
def coversFrom (w : Intv) : List MapNode → Nat → Bool
  | [], _ => false
  | n :: rest, c =>
    n.key.contains c &&
      (decide (w.upper ≤ n.key.upper) || coversFrom w rest (n.key.upper + 1))

/-- `NullBuffer` (src/sawyer/NullBuffer.h): only its logical size is state. -/
structure NullBuffer where
  size_ : Nat
deriving DecidableEq, Repr

namespace NullBuffer

/-- `NullBuffer::available` (src/sawyer/NullBuffer.h:31-33). -/
def available (b : NullBuffer) (start : Nat) : Nat :=
  if start < b.size_ then b.size_ - start else 0

/-- `NullBuffer::resize` (src/sawyer/NullBuffer.h:35-37). -/
def resize (b : NullBuffer) (newSize : Nat) : NullBuffer :=
  { b with size_ := newSize }

/-- `NullBuffer::read` (src/sawyer/NullBuffer.h:39-46) with a non-null
destination: the returned count is `min (available address) n`, and the loop
stores the default-constructed value into all `n` destination slots. -/
def read (V : Type) [Inhabited V] (b : NullBuffer) (address n : Nat) : Nat × List V :=
  (min (b.available address) n, List.replicate n default)

/-- `NullBuffer::write` (src/sawyer/NullBuffer.h:48-50): ignores everything and
returns 0; the buffer state is untouched. -/
def write {V : Type} (b : NullBuffer) (source : List V) (address n : Nat) : Nat × NullBuffer :=
  (0, b)

end NullBuffer

/-- `MappedBuffer` (src/sawyer/MappedBuffer.h): the memory-mapped region is
modelled as the list of its values (one value per addressed unit, i.e. the
`sizeof(Value) = 1` instantiation the container uses for byte maps). -/
structure MappedBuffer (V : Type) where
  data : List V

namespace MappedBuffer

/-- `MappedBuffer::available` (src/sawyer/MappedBuffer.h:55-57). -/
def available {V : Type} (b : MappedBuffer V) (address : Nat) : Nat :=
  if address ≥ b.data.length then 0 else b.data.length - address

/-- `MappedBuffer::resize` (src/sawyer/MappedBuffer.h:59-62): throws unless the
requested size equals the current size; the mapping itself is never changed. -/
def resize {V : Type} (b : MappedBuffer V) (n : Nat) : Except String Unit :=
  if n ≠ b.data.length then Except.error "resizing not allowed for MappedBuffer"
  else Except.ok ()

/-- `MappedBuffer::read` (src/sawyer/MappedBuffer.h:64-68): copies
`min n (available address)` values starting at `address`. -/
def read {V : Type} (b : MappedBuffer V) (address n : Nat) : Nat × List V :=
  (min n (b.available address), (b.data.drop address).take (min n (b.available address)))

/-- `MappedBuffer::write` (src/sawyer/MappedBuffer.h:70-74): overwrites
`min n (available address)` values starting at `address`. -/
def write {V : Type} (b : MappedBuffer V) (vals : List V) (address n : Nat) :
    Nat × MappedBuffer V :=
  (min n (b.available address),
   ⟨b.data.take address ++ vals.take (min n (b.available address)) ++
      b.data.drop (address + min n (b.available address))⟩)

end MappedBuffer

/-! ### General helper lemmas about list splices (shared by several claims) -/

theorem bufWriteL_length {V : Type} (d : List V) (off n : Nat) (vals : List V)
    (hvals : min n (d.length - off) ≤ vals.length) :
    (bufWriteL d off n vals).2.length = d.length := by
  simp [bufWriteL]
  omega

theorem splice_getElem_inside {α : Type} (d v : List α) (bo i : Nat)
    (hi : i < v.length) (hle : bo + v.length ≤ d.length) :
    (d.take bo ++ v ++ d.drop (bo + v.length))[bo + i]? = v[i]? := by
  have hbo : (d.take bo).length = bo := by simp; omega
  rw [List.append_assoc, List.getElem?_append_right (by omega),
      List.getElem?_append_left (by omega)]
  congr 1
  omega

theorem splice_getElem_outside {α : Type} (d v : List α) (bo j : Nat)
    (h : j < bo ∨ bo + v.length ≤ j) (hle : bo + v.length ≤ d.length) :
    (d.take bo ++ v ++ d.drop (bo + v.length))[j]? = d[j]? := by
  have hbo : (d.take bo).length = bo := by simp; omega
  rcases h with h | h
  · rw [List.append_assoc, List.getElem?_append_left (by omega)]
    exact List.getElem?_take_of_lt (by omega)
  · rw [List.append_assoc, List.getElem?_append_right (by omega),
        List.getElem?_append_right (by simp; omega), List.getElem?_drop]
    congr 1
    simp
    omega

theorem splice_slice {α : Type} (d v : List α) (bo : Nat)
    (hle : bo + v.length ≤ d.length) :
    ((d.take bo ++ v ++ d.drop (bo + v.length)).drop bo).take v.length = v := by
  have hbo : (d.take bo).length = bo := by simp; omega
  rw [List.append_assoc, List.drop_left' hbo, List.take_left' rfl]

theorem slice_congr {α : Type} (l₁ l₂ : List α) (bo k : Nat)
    (h₁ : bo + k ≤ l₁.length) (h₂ : bo + k ≤ l₂.length)
    (hp : ∀ j, bo ≤ j → j < bo + k → l₁[j]? = l₂[j]?) :
    (l₁.drop bo).take k = (l₂.drop bo).take k := by
  apply List.ext_getElem?
  intro i
  by_cases hik : i < k
  · rw [List.getElem?_take_of_lt hik, List.getElem?_take_of_lt hik,
        List.getElem?_drop, List.getElem?_drop]
    exact hp (bo + i) (by omega) (by omega)
  · rw [List.getElem?_eq_none (by simp; omega), List.getElem?_eq_none (by simp; omega)]

/-! ### Helper lemmas about intervals, find, and the transfer loops -/

theorem Intv.hull_emp_right (x : Intv) : x.hull Intv.emp = x := by
  cases x <;> rfl

theorem Intv.intersection_of_nonempty (x y : Intv)
    (h : (x.intersection y).isEmpty = false) :
    x.intersection y = Intv.ivl (max x.lower y.lower) (min x.upper y.upper) ∧
    max x.lower y.lower ≤ min x.upper y.upper := by
  cases x with
  | emp => simp [Intv.intersection, Intv.isEmpty] at h
  | ivl a b =>
    cases y with
    | emp => simp [Intv.intersection, Intv.isEmpty] at h
    | ivl c d =>
      simp only [Intv.intersection] at h ⊢
      split at h
      · next hc => simp only [Intv.lower, Intv.upper]; rw [if_pos hc]; exact ⟨rfl, hc⟩
      · simp [Intv.isEmpty] at h

theorem Intv.baseSize_pos (lo n : Nat) (h : 0 < n) :
    Intv.baseSize lo n = Intv.ivl lo (lo + n - 1) := by
  simp only [Intv.baseSize]
  rw [if_neg (by omega)]

theorem findFrom_head_contains (m : List MapNode) (a : Nat) (n : MapNode)
    (rest : List MapNode) (h : findFrom m a = n :: rest) :
    n.key.contains a = true := by
  induction m with
  | nil => simp [findFrom] at h
  | cons x xs ih =>
    rw [findFrom, List.dropWhile] at h
    by_cases hx : x.key.contains a = true
    · rw [show (!(x.key.contains a)) = false by simp [hx]] at h
      cases h with
      | refl => exact hx
    · rw [show (!(x.key.contains a)) = true by simp [hx]] at h
      exact ih h

theorem findFrom_sublist (m : List MapNode) (a : Nat) :
    (findFrom m a).Sublist m :=
  List.dropWhile_sublist _

theorem readLoop_cons_stop_access {V S : Type} (ops : BufferOps V S) (s : S) (w : Intv)
    (req proh : Nat) (n : MapNode) (rest : List MapNode) (retval : Intv) (acc : List V)
    (hacc : isAccessAllowed n.val.accessibility req proh = false) :
    readLoop ops s w req proh (n :: rest) retval acc = (retval, acc) := by
  rw [readLoop]
  simp [hacc]

theorem readLoop_cons_stop_guard {V S : Type} (ops : BufferOps V S) (s : S) (w : Intv)
    (req proh : Nat) (n : MapNode) (rest : List MapNode) (retval : Intv) (acc : List V)
    (hacc : isAccessAllowed n.val.accessibility req proh = true)
    (hguard : ((w.intersection n.key).isEmpty ||
       (!retval.isEmpty && retval.upper + 1 != (w.intersection n.key).lower)) = true) :
    readLoop ops s w req proh (n :: rest) retval acc = (retval, acc) := by
  rw [readLoop]
  simp [hacc, hguard]

theorem readLoop_cons_short {V S : Type} (ops : BufferOps V S) (s : S) (w : Intv)
    (req proh : Nat) (n : MapNode) (rest : List MapNode) (retval : Intv) (acc : List V)
    (hacc : isAccessAllowed n.val.accessibility req proh = true)
    (hguard : ((w.intersection n.key).isEmpty ||
       (!retval.isEmpty && retval.upper + 1 != (w.intersection n.key).lower)) = false)
    (hshort : (ops.readB s n.val.buffer
        ((w.intersection n.key).lower - n.key.lower + n.val.offset)
        (w.intersection n.key).size).1 ≠ (w.intersection n.key).size) :
    readLoop ops s w req proh (n :: rest) retval acc =
      (retval.hull (Intv.baseSize (w.intersection n.key).lower
          (ops.readB s n.val.buffer
            ((w.intersection n.key).lower - n.key.lower + n.val.offset)
            (w.intersection n.key).size).1),
       acc ++ (ops.readB s n.val.buffer
            ((w.intersection n.key).lower - n.key.lower + n.val.offset)
            (w.intersection n.key).size).2) := by
  rw [readLoop]
  simp only [hacc, Bool.not_true, hguard, bne_iff_ne, ne_eq, hshort, not_false_eq_true,
    if_true]
  rfl

theorem readLoop_cons_go {V S : Type} (ops : BufferOps V S) (s : S) (w : Intv)
    (req proh : Nat) (n : MapNode) (rest : List MapNode) (retval : Intv) (acc : List V)
    (hacc : isAccessAllowed n.val.accessibility req proh = true)
    (hguard : ((w.intersection n.key).isEmpty ||
       (!retval.isEmpty && retval.upper + 1 != (w.intersection n.key).lower)) = false)
    (hfull : (ops.readB s n.val.buffer
        ((w.intersection n.key).lower - n.key.lower + n.val.offset)
        (w.intersection n.key).size).1 = (w.intersection n.key).size) :
    readLoop ops s w req proh (n :: rest) retval acc =
      readLoop ops s w req proh rest (retval.hull (w.intersection n.key))
        (acc ++ (ops.readB s n.val.buffer
            ((w.intersection n.key).lower - n.key.lower + n.val.offset)
            (w.intersection n.key).size).2) := by
  rw [readLoop]
  simp [hacc, hguard, hfull]

theorem writeLoop_cons_stop_access {V S : Type} (ops : BufferOps V S) (w : Intv)
    (req proh : Nat) (n : MapNode) (rest : List MapNode) (retval : Intv) (vals : List V)
    (s : S) (hacc : isAccessAllowed n.val.accessibility req proh = false) :
    writeLoop ops w req proh (n :: rest) retval vals s = (retval, s) := by
  rw [writeLoop]
  simp [hacc]

theorem writeLoop_cons_stop_guard {V S : Type} (ops : BufferOps V S) (w : Intv)
    (req proh : Nat) (n : MapNode) (rest : List MapNode) (retval : Intv) (vals : List V)
    (s : S) (hacc : isAccessAllowed n.val.accessibility req proh = true)
    (hguard : ((w.intersection n.key).isEmpty ||
       (!retval.isEmpty && retval.upper + 1 != (w.intersection n.key).lower)) = true) :
    writeLoop ops w req proh (n :: rest) retval vals s = (retval, s) := by
  rw [writeLoop]
  simp [hacc, hguard]

theorem writeLoop_cons_short {V S : Type} (ops : BufferOps V S) (w : Intv)
    (req proh : Nat) (n : MapNode) (rest : List MapNode) (retval : Intv) (vals : List V)
    (s : S) (hacc : isAccessAllowed n.val.accessibility req proh = true)
    (hguard : ((w.intersection n.key).isEmpty ||
       (!retval.isEmpty && retval.upper + 1 != (w.intersection n.key).lower)) = false)
    (hshort : (ops.writeB s n.val.buffer
        ((w.intersection n.key).lower - n.key.lower + n.val.offset)
        (w.intersection n.key).size vals).1 ≠ (w.intersection n.key).size) :
    writeLoop ops w req proh (n :: rest) retval vals s =
      (retval.hull (Intv.baseSize (w.intersection n.key).lower
          (ops.writeB s n.val.buffer
            ((w.intersection n.key).lower - n.key.lower + n.val.offset)
            (w.intersection n.key).size vals).1),
       (ops.writeB s n.val.buffer
            ((w.intersection n.key).lower - n.key.lower + n.val.offset)
            (w.intersection n.key).size vals).2) := by
  rw [writeLoop]
  simp only [hacc, Bool.not_true, hguard, bne_iff_ne, ne_eq, hshort, not_false_eq_true,
    if_true]
  rfl

theorem writeLoop_cons_go {V S : Type} (ops : BufferOps V S) (w : Intv)
    (req proh : Nat) (n : MapNode) (rest : List MapNode) (retval : Intv) (vals : List V)
    (s : S) (hacc : isAccessAllowed n.val.accessibility req proh = true)
    (hguard : ((w.intersection n.key).isEmpty ||
       (!retval.isEmpty && retval.upper + 1 != (w.intersection n.key).lower)) = false)
    (hfull : (ops.writeB s n.val.buffer
        ((w.intersection n.key).lower - n.key.lower + n.val.offset)
        (w.intersection n.key).size vals).1 = (w.intersection n.key).size) :
    writeLoop ops w req proh (n :: rest) retval vals s =
      writeLoop ops w req proh rest (retval.hull (w.intersection n.key))
        (vals.drop (w.intersection n.key).size)
        (ops.writeB s n.val.buffer
            ((w.intersection n.key).lower - n.key.lower + n.val.offset)
            (w.intersection n.key).size vals).2 := by
  rw [writeLoop]
  simp [hacc, hguard, hfull]

theorem Intv.contains_true {x : Intv} {a : Nat} (h : x.contains a = true) :
    x.lower ≤ a ∧ a ≤ x.upper ∧ x.isEmpty = false := by
  cases x with
  | emp => simp [Intv.contains] at h
  | ivl lo hi =>
    simp [Intv.contains] at h
    exact ⟨h.1, h.2, rfl⟩

theorem Intv.lower_ivl (lo hi : Nat) : (Intv.ivl lo hi).lower = lo := rfl

theorem Intv.upper_ivl (lo hi : Nat) : (Intv.ivl lo hi).upper = hi := rfl

theorem Intv.size_ivl (lo hi : Nat) : (Intv.ivl lo hi).size = hi + 1 - lo := rfl

theorem Intv.isEmpty_ivl (lo hi : Nat) : (Intv.ivl lo hi).isEmpty = false := rfl

theorem Intv.hull_ivl (a b c d : Nat) :
    (Intv.ivl a b).hull (Intv.ivl c d) = Intv.ivl (min a c) (max b d) := rfl

theorem Intv.hull_emp_left (y : Intv) : Intv.emp.hull y = y := rfl

theorem Intv.baseSize_zero (lo : Nat) : Intv.baseSize lo 0 = Intv.emp := rfl

theorem Intv.size_emp : Intv.emp.size = 0 := rfl

theorem hull_emp_baseSize_shape (pl pu nr : Nat) (hnr : nr ≤ pu + 1 - pl)
    (hpb : pl ≤ pu) :
    Intv.emp.hull (Intv.baseSize pl nr) = Intv.emp ∨
    ∃ e, Intv.emp.hull (Intv.baseSize pl nr) = Intv.ivl pl e ∧ pl ≤ e ∧ e ≤ pu := by
  rcases Nat.eq_zero_or_pos nr with h0 | h0
  · left
    rw [h0, Intv.baseSize_zero]
    rfl
  · right
    rw [Intv.baseSize_pos _ _ h0, Intv.hull_emp_left]
    exact ⟨pl + nr - 1, rfl, by omega, by omega⟩

theorem hull_baseSize_shape (lo c pl pu nr : Nat) (hlo : lo ≤ c) (hpl : pl = c + 1)
    (hnr : nr ≤ pu + 1 - pl) (hpb : pl ≤ pu) :
    (Intv.ivl lo c).hull (Intv.baseSize pl nr) = Intv.ivl lo c ∨
    ∃ e, (Intv.ivl lo c).hull (Intv.baseSize pl nr) = Intv.ivl lo e ∧ lo ≤ e ∧ e ≤ pu := by
  rcases Nat.eq_zero_or_pos nr with h0 | h0
  · left
    rw [h0, Intv.baseSize_zero, Intv.hull_emp_right]
  · right
    rw [Intv.baseSize_pos _ _ h0, Intv.hull_ivl,
        Nat.min_eq_left (by omega), Nat.max_eq_right (by omega)]
    exact ⟨pl + nr - 1, rfl, by omega, by omega⟩

theorem hull_contig_ivl (lo c pl pu : Nat) (hlo : lo ≤ c) (hpl : pl = c + 1)
    (hpb : pl ≤ pu) :
    (Intv.ivl lo c).hull (Intv.ivl pl pu) = Intv.ivl lo pu := by
  rw [Intv.hull_ivl, Nat.min_eq_left (by omega), Nat.max_eq_right (by omega)]

theorem readLoop_shape {V S : Type} (ops : BufferOps V S) (s : S) (w : Intv)
    (req proh : Nat) (hops : ∀ bid off k, (ops.readB s bid off k).1 ≤ k) :
    ∀ (ns : List MapNode) (retval : Intv) (acc : List V),
    ((retval = Intv.emp ∧ ∀ n rest, ns = n :: rest → n.key.contains w.lower = true) ∨
      (∃ c, retval = Intv.ivl w.lower c ∧ w.lower ≤ c ∧ c ≤ w.upper)) →
    ((readLoop ops s w req proh ns retval acc).1 = Intv.emp ∨
      ∃ c, (readLoop ops s w req proh ns retval acc).1 = Intv.ivl w.lower c ∧
        w.lower ≤ c ∧ c ≤ w.upper) := by
  intro ns
  induction ns with
  | nil =>
    intro retval acc inv
    rcases inv with ⟨h, _⟩ | ⟨c, h, h1, h2⟩
    · left; rw [readLoop, h]
    · right; exact ⟨c, by rw [readLoop, h], h1, h2⟩
  | cons n rest ih =>
    intro retval acc inv
    by_cases hacc : isAccessAllowed n.val.accessibility req proh = true
    · by_cases hguard : ((w.intersection n.key).isEmpty ||
          (!retval.isEmpty && retval.upper + 1 != (w.intersection n.key).lower)) = true
      · rw [readLoop_cons_stop_guard ops s w req proh n rest retval acc hacc hguard]
        rcases inv with ⟨h, _⟩ | ⟨c, h, h1, h2⟩
        · left; exact h
        · right; exact ⟨c, h, h1, h2⟩
      · have hguard' : ((w.intersection n.key).isEmpty ||
            (!retval.isEmpty && retval.upper + 1 != (w.intersection n.key).lower)) = false := by
          simpa using hguard
        have hpe : (w.intersection n.key).isEmpty = false := by
          rcases Bool.or_eq_false_iff.mp hguard' with ⟨h1, _⟩
          exact h1
        have hcontig := (Bool.or_eq_false_iff.mp hguard').2
        obtain ⟨hpart_eq, hpb⟩ := Intv.intersection_of_nonempty w n.key hpe
        have hle := hops n.val.buffer
          ((w.intersection n.key).lower - n.key.lower + n.val.offset)
          (w.intersection n.key).size
        rcases inv with ⟨hemp, hhead⟩ | ⟨c, hret, hc1, hc2⟩
        · -- first node: retval is empty and the node contains w.lower
          have hcont := Intv.contains_true (hhead n rest rfl)
          have hmax : max w.lower n.key.lower = w.lower := Nat.max_eq_left hcont.1
          rw [hmax] at hpart_eq hpb
          have hplw : (w.intersection n.key).lower = w.lower := by
            rw [hpart_eq, Intv.lower_ivl]
          have hsz : (w.intersection n.key).size =
              min w.upper n.key.upper + 1 - w.lower := by
            rw [hpart_eq, Intv.size_ivl]
          by_cases hshort : (ops.readB s n.val.buffer
              ((w.intersection n.key).lower - n.key.lower + n.val.offset)
              (w.intersection n.key).size).1 = (w.intersection n.key).size
          · rw [readLoop_cons_go ops s w req proh n rest retval acc hacc hguard' hshort]
            apply ih
            right
            refine ⟨min w.upper n.key.upper, ?_, hpb, Nat.min_le_left _ _⟩
            rw [hemp, hpart_eq, Intv.hull_emp_left]
          · obtain ⟨r, hr⟩ : ∃ r, ops.readB s n.val.buffer
                ((w.intersection n.key).lower - n.key.lower + n.val.offset)
                (w.intersection n.key).size = r := ⟨_, rfl⟩
            rw [hr] at hle
            rw [readLoop_cons_short ops s w req proh n rest retval acc hacc hguard' hshort,
               hr, hemp, hplw]
            rw [hsz] at hle
            rcases hull_emp_baseSize_shape w.lower (min w.upper n.key.upper) r.1
                (by omega) hpb with hsh | ⟨e, hsh, he1, he2⟩
            · left
              exact hsh
            · right
              refine ⟨e, hsh, he1, ?_⟩
              have : min w.upper n.key.upper ≤ w.upper := Nat.min_le_left _ _
              omega
        · -- continuing: retval = [w.lower, c] and the guard forces contiguity
          have hretne : retval.isEmpty = false := by rw [hret]; exact Intv.isEmpty_ivl _ _
          have hcontig' : retval.upper + 1 = (w.intersection n.key).lower := by
            rw [hretne] at hcontig
            simp at hcontig
            exact hcontig
          have hup : retval.upper = c := by rw [hret]; exact Intv.upper_ivl _ _
          have hpl : (w.intersection n.key).lower = c + 1 := by omega
          have hpu : (w.intersection n.key).upper = min w.upper n.key.upper := by
            rw [hpart_eq, Intv.upper_ivl]
          have hsz : (w.intersection n.key).size =
              min w.upper n.key.upper + 1 - (c + 1) := by
            rw [hpart_eq, Intv.size_ivl, ← hpl, hpart_eq, Intv.lower_ivl]
          have hpb' : c + 1 ≤ min w.upper n.key.upper := by
            rw [hpart_eq] at hpl
            rw [Intv.lower_ivl] at hpl
            omega
          by_cases hshort : (ops.readB s n.val.buffer
              ((w.intersection n.key).lower - n.key.lower + n.val.offset)
              (w.intersection n.key).size).1 = (w.intersection n.key).size
          · rw [readLoop_cons_go ops s w req proh n rest retval acc hacc hguard' hshort]
            apply ih
            right
            refine ⟨min w.upper n.key.upper, ?_, by omega, Nat.min_le_left _ _⟩
            rw [hret, hpart_eq]
            rw [hpart_eq, Intv.lower_ivl] at hpl
            rw [hpl]
            exact hull_contig_ivl w.lower c (c + 1) (min w.upper n.key.upper) hc1 rfl hpb'
          · obtain ⟨r, hr⟩ : ∃ r, ops.readB s n.val.buffer
                ((w.intersection n.key).lower - n.key.lower + n.val.offset)
                (w.intersection n.key).size = r := ⟨_, rfl⟩
            rw [hr] at hle
            rw [readLoop_cons_short ops s w req proh n rest retval acc hacc hguard' hshort,
               hr, hret, hpl]
            rw [hsz] at hle
            rcases hull_baseSize_shape w.lower c (c + 1) (min w.upper n.key.upper) r.1
                hc1 rfl (by omega) hpb' with hsh | ⟨e, hsh, he1, he2⟩
            · right
              rw [hsh]
              exact ⟨c, rfl, hc1, hc2⟩
            · right
              refine ⟨e, hsh, he1, ?_⟩
              have : min w.upper n.key.upper ≤ w.upper := Nat.min_le_left _ _
              omega
    · have hacc' : isAccessAllowed n.val.accessibility req proh = false := by
        simpa using hacc
      rw [readLoop_cons_stop_access ops s w req proh n rest retval acc hacc']
      rcases inv with ⟨h, _⟩ | ⟨c, h, h1, h2⟩
      · left; exact h
      · right; exact ⟨c, h, h1, h2⟩

theorem writeLoop_shape {V S : Type} (ops : BufferOps V S) (w : Intv) (req proh : Nat)
    (hops : ∀ (s₀ : S) (bid off k : Nat) (vs : List V), (ops.writeB s₀ bid off k vs).1 ≤ k) :
    ∀ (ns : List MapNode) (retval : Intv) (vals : List V) (s : S),
    ((retval = Intv.emp ∧ ∀ n rest, ns = n :: rest → n.key.contains w.lower = true) ∨
      (∃ c, retval = Intv.ivl w.lower c ∧ w.lower ≤ c ∧ c ≤ w.upper)) →
    ((writeLoop ops w req proh ns retval vals s).1 = Intv.emp ∨
      ∃ c, (writeLoop ops w req proh ns retval vals s).1 = Intv.ivl w.lower c ∧
        w.lower ≤ c ∧ c ≤ w.upper) := by
  intro ns
  induction ns with
  | nil =>
    intro retval vals s inv
    rcases inv with ⟨h, _⟩ | ⟨c, h, h1, h2⟩
    · left; rw [writeLoop, h]
    · right; exact ⟨c, by rw [writeLoop, h], h1, h2⟩
  | cons n rest ih =>
    intro retval vals s inv
    by_cases hacc : isAccessAllowed n.val.accessibility req proh = true
    · by_cases hguard : ((w.intersection n.key).isEmpty ||
          (!retval.isEmpty && retval.upper + 1 != (w.intersection n.key).lower)) = true
      · rw [writeLoop_cons_stop_guard ops w req proh n rest retval vals s hacc hguard]
        rcases inv with ⟨h, _⟩ | ⟨c, h, h1, h2⟩
        · left; exact h
        · right; exact ⟨c, h, h1, h2⟩
      · have hguard' : ((w.intersection n.key).isEmpty ||
            (!retval.isEmpty && retval.upper + 1 != (w.intersection n.key).lower)) = false := by
          simpa using hguard
        have hpe : (w.intersection n.key).isEmpty = false := by
          rcases Bool.or_eq_false_iff.mp hguard' with ⟨h1, _⟩
          exact h1
        have hcontig := (Bool.or_eq_false_iff.mp hguard').2
        obtain ⟨hpart_eq, hpb⟩ := Intv.intersection_of_nonempty w n.key hpe
        have hle := hops s n.val.buffer
          ((w.intersection n.key).lower - n.key.lower + n.val.offset)
          (w.intersection n.key).size vals
        rcases inv with ⟨hemp, hhead⟩ | ⟨c, hret, hc1, hc2⟩
        · have hcont := Intv.contains_true (hhead n rest rfl)
          have hmax : max w.lower n.key.lower = w.lower := Nat.max_eq_left hcont.1
          rw [hmax] at hpart_eq hpb
          have hplw : (w.intersection n.key).lower = w.lower := by
            rw [hpart_eq, Intv.lower_ivl]
          have hsz : (w.intersection n.key).size =
              min w.upper n.key.upper + 1 - w.lower := by
            rw [hpart_eq, Intv.size_ivl]
          by_cases hshort : (ops.writeB s n.val.buffer
              ((w.intersection n.key).lower - n.key.lower + n.val.offset)
              (w.intersection n.key).size vals).1 = (w.intersection n.key).size
          · rw [writeLoop_cons_go ops w req proh n rest retval vals s hacc hguard' hshort]
            apply ih
            right
            refine ⟨min w.upper n.key.upper, ?_, hpb, Nat.min_le_left _ _⟩
            rw [hemp, hpart_eq, Intv.hull_emp_left]
          · obtain ⟨r, hr⟩ : ∃ r, ops.writeB s n.val.buffer
                ((w.intersection n.key).lower - n.key.lower + n.val.offset)
                (w.intersection n.key).size vals = r := ⟨_, rfl⟩
            rw [hr] at hle
            rw [writeLoop_cons_short ops w req proh n rest retval vals s hacc hguard' hshort,
               hr, hemp, hplw]
            rw [hsz] at hle
            rcases hull_emp_baseSize_shape w.lower (min w.upper n.key.upper) r.1
                (by omega) hpb with hsh | ⟨e, hsh, he1, he2⟩
            · left
              exact hsh
            · right
              refine ⟨e, hsh, he1, ?_⟩
              have : min w.upper n.key.upper ≤ w.upper := Nat.min_le_left _ _
              omega
        · have hretne : retval.isEmpty = false := by rw [hret]; exact Intv.isEmpty_ivl _ _
          have hcontig' : retval.upper + 1 = (w.intersection n.key).lower := by
            rw [hretne] at hcontig
            simp at hcontig
            exact hcontig
          have hup : retval.upper = c := by rw [hret]; exact Intv.upper_ivl _ _
          have hpl : (w.intersection n.key).lower = c + 1 := by omega
          have hsz : (w.intersection n.key).size =
              min w.upper n.key.upper + 1 - (c + 1) := by
            rw [hpart_eq, Intv.size_ivl, ← hpl, hpart_eq, Intv.lower_ivl]
          have hpb' : c + 1 ≤ min w.upper n.key.upper := by
            rw [hpart_eq] at hpl
            rw [Intv.lower_ivl] at hpl
            omega
          by_cases hshort : (ops.writeB s n.val.buffer
              ((w.intersection n.key).lower - n.key.lower + n.val.offset)
              (w.intersection n.key).size vals).1 = (w.intersection n.key).size
          · rw [writeLoop_cons_go ops w req proh n rest retval vals s hacc hguard' hshort]
            apply ih
            right
            refine ⟨min w.upper n.key.upper, ?_, by omega, Nat.min_le_left _ _⟩
            rw [hret, hpart_eq]
            rw [hpart_eq, Intv.lower_ivl] at hpl
            rw [hpl]
            exact hull_contig_ivl w.lower c (c + 1) (min w.upper n.key.upper) hc1 rfl hpb'
          · obtain ⟨r, hr⟩ : ∃ r, ops.writeB s n.val.buffer
                ((w.intersection n.key).lower - n.key.lower + n.val.offset)
                (w.intersection n.key).size vals = r := ⟨_, rfl⟩
            rw [hr] at hle
            rw [writeLoop_cons_short ops w req proh n rest retval vals s hacc hguard' hshort,
               hr, hret, hpl]
            rw [hsz] at hle
            rcases hull_baseSize_shape w.lower c (c + 1) (min w.upper n.key.upper) r.1
                hc1 rfl (by omega) hpb' with hsh | ⟨e, hsh, he1, he2⟩
            · right
              rw [hsh]
              exact ⟨c, rfl, hc1, hc2⟩
            · right
              refine ⟨e, hsh, he1, ?_⟩
              have : min w.upper n.key.upper ≤ w.upper := Nat.min_le_left _ _
              omega
    · have hacc' : isAccessAllowed n.val.accessibility req proh = false := by
        simpa using hacc
      rw [writeLoop_cons_stop_access ops w req proh n rest retval vals s hacc']
      rcases inv with ⟨h, _⟩ | ⟨c, h, h1, h2⟩
      · left; exact h
      · right; exact ⟨c, h, h1, h2⟩

theorem readLoop_length {V S : Type} (ops : BufferOps V S) (s : S) (w : Intv)
    (req proh : Nat)
    (hops : ∀ bid off k, (ops.readB s bid off k).2.length = (ops.readB s bid off k).1) :
    ∀ (ns : List MapNode) (retval : Intv) (acc : List V),
    acc.length = retval.size →
    (retval = Intv.emp ∨ ∃ lo c, retval = Intv.ivl lo c ∧ lo ≤ c) →
    (readLoop ops s w req proh ns retval acc).2.length =
      (readLoop ops s w req proh ns retval acc).1.size := by
  intro ns
  induction ns with
  | nil =>
    intro retval acc hlen _
    rw [readLoop]
    exact hlen
  | cons n rest ih =>
    intro retval acc hlen hshape
    by_cases hacc : isAccessAllowed n.val.accessibility req proh = true
    · by_cases hguard : ((w.intersection n.key).isEmpty ||
          (!retval.isEmpty && retval.upper + 1 != (w.intersection n.key).lower)) = true
      · rw [readLoop_cons_stop_guard ops s w req proh n rest retval acc hacc hguard]
        exact hlen
      · have hguard' : ((w.intersection n.key).isEmpty ||
            (!retval.isEmpty && retval.upper + 1 != (w.intersection n.key).lower)) = false := by
          simpa using hguard
        have hpe : (w.intersection n.key).isEmpty = false := by
          rcases Bool.or_eq_false_iff.mp hguard' with ⟨h1, _⟩
          exact h1
        have hcontig := (Bool.or_eq_false_iff.mp hguard').2
        obtain ⟨hpart_eq, hpb⟩ := Intv.intersection_of_nonempty w n.key hpe
        have hrl := hops n.val.buffer
          ((w.intersection n.key).lower - n.key.lower + n.val.offset)
          (w.intersection n.key).size
        obtain ⟨r, hr⟩ : ∃ r, ops.readB s n.val.buffer
            ((w.intersection n.key).lower - n.key.lower + n.val.offset)
            (w.intersection n.key).size = r := ⟨_, rfl⟩
        rw [hr] at hrl
        have hszpart : (w.intersection n.key).size =
            min w.upper n.key.upper + 1 - max w.lower n.key.lower := by
          rw [hpart_eq, Intv.size_ivl]
        rcases hshape with he | ⟨lo, c, he, hlc⟩
        · -- retval is empty so far
          by_cases hshort : (ops.readB s n.val.buffer
              ((w.intersection n.key).lower - n.key.lower + n.val.offset)
              (w.intersection n.key).size).1 = (w.intersection n.key).size
          · rw [readLoop_cons_go ops s w req proh n rest retval acc hacc hguard' hshort, hr]
            have hshort' := hshort
            rw [hr] at hshort'
            apply ih
            · rw [List.length_append, hlen, hrl, hshort', he, Intv.hull_emp_left,
                  Intv.size_emp]
              omega
            · right
              rw [he, Intv.hull_emp_left, hpart_eq]
              exact ⟨_, _, rfl, hpb⟩
          · rw [readLoop_cons_short ops s w req proh n rest retval acc hacc hguard' hshort,
               hr]
            dsimp only
            rw [List.length_append, hlen, hrl, he, Intv.hull_emp_left, Intv.size_emp]
            rcases Nat.eq_zero_or_pos r.1 with h0 | h0
            · rw [h0, Intv.baseSize_zero, Intv.size_emp]
            · rw [Intv.baseSize_pos _ _ h0, Intv.size_ivl]
              omega
        · -- retval = [lo, c]
          have hretne : retval.isEmpty = false := by
            rw [he]; exact Intv.isEmpty_ivl _ _
          have hcontig' : retval.upper + 1 = (w.intersection n.key).lower := by
            rw [hretne] at hcontig
            simp at hcontig
            exact hcontig
          have hcontig'' : c + 1 = max w.lower n.key.lower := by
            rw [he, Intv.upper_ivl] at hcontig'
            rw [hpart_eq, Intv.lower_ivl] at hcontig'
            exact hcontig'
          have hpb2 : c + 1 ≤ min w.upper n.key.upper := by
            rw [hcontig'']
            exact hpb
          by_cases hshort : (ops.readB s n.val.buffer
              ((w.intersection n.key).lower - n.key.lower + n.val.offset)
              (w.intersection n.key).size).1 = (w.intersection n.key).size
          · rw [readLoop_cons_go ops s w req proh n rest retval acc hacc hguard' hshort, hr]
            have hshort' := hshort
            rw [hr] at hshort'
            apply ih
            · rw [List.length_append, hlen, hrl, hshort', he, hpart_eq, ← hcontig'',
                  Intv.hull_ivl,
                  show min lo (c + 1) = lo from by omega,
                  show max c (min w.upper n.key.upper) = min w.upper n.key.upper from by
                    omega,
                  Intv.size_ivl, Intv.size_ivl, Intv.size_ivl]
              omega
            · right
              rw [he, hpart_eq, ← hcontig'', Intv.hull_ivl,
                  show min lo (c + 1) = lo from by omega,
                  show max c (min w.upper n.key.upper) = min w.upper n.key.upper from by
                    omega]
              exact ⟨lo, _, rfl, by omega⟩
          · rw [readLoop_cons_short ops s w req proh n rest retval acc hacc hguard' hshort,
               hr]
            dsimp only
            rw [List.length_append, hlen, hrl]
            have hpl : (w.intersection n.key).lower = c + 1 := by
              rw [hpart_eq, Intv.lower_ivl, ← hcontig'']
            rw [hpl, he]
            rcases Nat.eq_zero_or_pos r.1 with h0 | h0
            · rw [h0, Intv.baseSize_zero, Intv.hull_emp_right]
              omega
            · rw [Intv.baseSize_pos _ _ h0, Intv.hull_ivl,
                  show min lo (c + 1) = lo from by omega,
                  show max c (c + 1 + r.1 - 1) = c + 1 + r.1 - 1 from by omega,
                  Intv.size_ivl, Intv.size_ivl]
              omega
    · have hacc' : isAccessAllowed n.val.accessibility req proh = false := by
        simpa using hacc
      rw [readLoop_cons_stop_access ops s w req proh n rest retval acc hacc']
      exact hlen

theorem Intv.intersection_ivl_of_nonempty (lo hi : Nat) (y : Intv)
    (hy : y.isEmpty = false) :
    (Intv.ivl lo hi).intersection y =
      if max lo y.lower ≤ min hi y.upper then Intv.ivl (max lo y.lower) (min hi y.upper)
      else Intv.emp := by
  cases y with
  | emp => simp [Intv.isEmpty] at hy
  | ivl c d => rfl

theorem Intv.intersection_empty_of_gap (lo hi : Nat) (y : Intv) (h : hi < y.lower) :
    ((Intv.ivl lo hi).intersection y).isEmpty = true := by
  cases y with
  | emp => rfl
  | ivl c d =>
    rw [Intv.intersection]
    rw [Intv.lower_ivl] at h
    rw [if_neg (by omega)]
    rfl

theorem Intv.size_of_nonempty (x : Intv) (hx : x.isEmpty = false) :
    x.size = x.upper + 1 - x.lower := by
  cases x with
  | emp => simp [Intv.isEmpty] at hx
  | ivl lo hi => rfl

theorem readLoop_stop_first {V S : Type} (ops : BufferOps V S) (s : S) (w : Intv)
    (req proh : Nat) (ns : List MapNode) (retval : Intv) (acc : List V)
    (h : ∀ n rest, ns = n :: rest → (w.intersection n.key).isEmpty = true) :
    readLoop ops s w req proh ns retval acc = (retval, acc) := by
  cases ns with
  | nil => rw [readLoop]
  | cons n rest =>
    by_cases hacc : isAccessAllowed n.val.accessibility req proh = true
    · exact readLoop_cons_stop_guard ops s w req proh n rest retval acc hacc
        (by rw [h n rest rfl]; rfl)
    · exact readLoop_cons_stop_access ops s w req proh n rest retval acc
        (by simpa using hacc)

theorem writeLoop_stop_first {V S : Type} (ops : BufferOps V S) (w : Intv)
    (req proh : Nat) (ns : List MapNode) (retval : Intv) (vals : List V) (s : S)
    (h : ∀ n rest, ns = n :: rest → (w.intersection n.key).isEmpty = true) :
    writeLoop ops w req proh ns retval vals s = (retval, s) := by
  cases ns with
  | nil => rw [writeLoop]
  | cons n rest =>
    by_cases hacc : isAccessAllowed n.val.accessibility req proh = true
    · exact writeLoop_cons_stop_guard ops w req proh n rest retval vals s hacc
        (by rw [h n rest rfl]; rfl)
    · exact writeLoop_cons_stop_access ops w req proh n rest retval vals s
        (by simpa using hacc)

theorem memWrite_count {V : Type} (d : List V) (bo k : Nat) (vals : List V)
    (hcap : bo + k ≤ d.length) : (bufWriteL d bo k vals).1 = k := by
  simp [bufWriteL]
  omega

theorem memWrite_data {V : Type} (d : List V) (bo k : Nat) (vals : List V)
    (hcap : bo + k ≤ d.length) :
    (bufWriteL d bo k vals).2 = d.take bo ++ vals.take k ++ d.drop (bo + k) := by
  rw [bufWriteL]
  rw [show min k (d.length - bo) = k from by omega]

theorem memWrite_store_length {V : Type} (s : Nat → List V) (bid bo k : Nat)
    (vals : List V) (hcap : bo + k ≤ (s bid).length) (hk : k ≤ vals.length) :
    ∀ bid', ((updStore s bid (bufWriteL (s bid) bo k vals).2) bid').length =
      (s bid').length := by
  intro bid'
  rw [updStore]
  split
  · next heq =>
    rw [heq, memWrite_data _ _ _ _ hcap]
    simp
    omega
  · rfl

theorem memWrite_store_get_in {V : Type} (s : Nat → List V) (bid bo k : Nat)
    (vals : List V) (hcap : bo + k ≤ (s bid).length) (hk : k ≤ vals.length)
    (i : Nat) (hi : i < k) :
    ((updStore s bid (bufWriteL (s bid) bo k vals).2) bid)[bo + i]? = vals[i]? := by
  rw [updStore, if_pos rfl, memWrite_data _ _ _ _ hcap]
  have hvtk : (vals.take k).length = k := by simp; omega
  rw [show bo + k = bo + (vals.take k).length from by rw [hvtk]]
  rw [splice_getElem_inside _ _ _ _ (by rw [hvtk]; omega) (by rw [hvtk]; omega)]
  exact List.getElem?_take_of_lt (by omega)

theorem memWrite_store_get_out {V : Type} (s : Nat → List V) (bid bo k : Nat)
    (vals : List V) (hcap : bo + k ≤ (s bid).length) (hk : k ≤ vals.length)
    (bid' j : Nat) (h : bid' ≠ bid ∨ j < bo ∨ bo + k ≤ j) :
    ((updStore s bid (bufWriteL (s bid) bo k vals).2) bid')[j]? = (s bid')[j]? := by
  rw [updStore]
  split
  · next heq =>
    rw [heq, memWrite_data _ _ _ _ hcap]
    have hvtk : (vals.take k).length = k := by simp; omega
    rw [show bo + k = bo + (vals.take k).length from by rw [hvtk]]
    refine splice_getElem_outside _ _ _ _ ?_ (by rw [hvtk]; omega)
    rcases h with h | h | h
    · exact absurd heq h
    · exact Or.inl h
    · right
      rw [hvtk]
      omega
  · rfl

theorem memWrite_store_slice {V : Type} (s : Nat → List V) (bid bo k : Nat)
    (vals : List V) (hcap : bo + k ≤ (s bid).length) (hk : k ≤ vals.length) :
    (((updStore s bid (bufWriteL (s bid) bo k vals).2) bid).drop bo).take k =
      vals.take k := by
  rw [updStore, if_pos rfl, memWrite_data _ _ _ _ hcap]
  obtain ⟨v, hv⟩ : ∃ v, vals.take k = v := ⟨_, rfl⟩
  have hvl : v.length = k := by rw [← hv]; simp; omega
  rw [hv, show bo + k = bo + v.length from by omega, show k = v.length from hvl.symm]
  exact splice_slice _ v bo (by omega)

theorem memRead_full {V : Type} (d : List V) (bo k : Nat) (hcap : bo + k ≤ d.length) :
    (bufReadL d bo k).1 = k := by
  simp [bufReadL]
  omega

theorem memRead_vals {V : Type} (d : List V) (bo k : Nat) (hcap : bo + k ≤ d.length) :
    (bufReadL d bo k).2 = (d.drop bo).take k := by
  rw [bufReadL]
  rw [show min k (d.length - bo) = k from by omega]

theorem writeReadAux {V : Type} (lo hi : Nat) :
    ∀ (ns : List MapNode) (c : Nat) (vals : List V) (s : Nat → List V),
    lo ≤ c → c ≤ hi →
    coversFrom (Intv.ivl lo hi) ns c = true →
    (∀ n ∈ ns, nodeWF n) →
    ns.Pairwise (fun x y => x.key.upper < y.key.lower) →
    ns.Pairwise (regionsDisjoint (Intv.ivl lo hi)) →
    (∀ n ∈ ns, (partOf (Intv.ivl lo hi) n).isEmpty = false →
       isAccessAllowed n.val.accessibility WRITABLE 0 = true ∧
       isAccessAllowed n.val.accessibility READABLE 0 = true ∧
       n.val.offset + n.key.size ≤ (s n.val.buffer).length) →
    vals.length = hi + 1 - c →
    (∀ n rest, ns = n :: rest → lo < c → n.key.lower = c) →
    ∀ retvalW : Intv,
    ((retvalW = Intv.emp ∧ c = lo) ∨ (retvalW = Intv.ivl lo (c - 1) ∧ lo + 1 ≤ c)) →
    (writeLoop (memOps V) (Intv.ivl lo hi) WRITABLE 0 ns retvalW vals s).1 =
        Intv.ivl lo hi ∧
    (∀ bid, ((writeLoop (memOps V) (Intv.ivl lo hi) WRITABLE 0 ns retvalW vals s).2
        bid).length = (s bid).length) ∧
    (∀ bid j,
       (∀ n ∈ ns, (partOf (Intv.ivl lo hi) n).isEmpty = false → n.val.buffer = bid →
          j < partBase (Intv.ivl lo hi) n ∨
          partBase (Intv.ivl lo hi) n + (partOf (Intv.ivl lo hi) n).size ≤ j) →
       ((writeLoop (memOps V) (Intv.ivl lo hi) WRITABLE 0 ns retvalW vals s).2
           bid)[j]? = (s bid)[j]?) ∧
    (∀ (retvalR : Intv) (acc : List V),
       ((retvalR = Intv.emp ∧ c = lo) ∨ (retvalR = Intv.ivl lo (c - 1) ∧ lo + 1 ≤ c)) →
       readLoop (memOps V)
           ((writeLoop (memOps V) (Intv.ivl lo hi) WRITABLE 0 ns retvalW vals s).2)
           (Intv.ivl lo hi) READABLE 0 ns retvalR acc = (Intv.ivl lo hi, acc ++ vals)) := by
  intro ns
  induction ns with
  | nil =>
    intro c vals s _ _ hcov
    simp [coversFrom] at hcov
  | cons n rest ih =>
    intro c vals s hlc hch hcov hwf hord hdisj hok hlen hhead retvalW hinvW
    have hwfn := hwf n (List.mem_cons_self n rest)
    have hcovs : n.key.contains c = true ∧
        (hi ≤ n.key.upper ∨ coversFrom (Intv.ivl lo hi) rest (n.key.upper + 1) = true) := by
      simpa [coversFrom, Intv.upper_ivl, Bool.and_eq_true, Bool.or_eq_true,
        decide_eq_true_eq] using hcov
    obtain ⟨hcont, hnext⟩ := hcovs
    have hcb := Intv.contains_true hcont
    have hcl : c = lo ∨ n.key.lower = c := by
      rcases hinvW with ⟨_, h⟩ | ⟨_, h⟩
      · exact Or.inl h
      · exact Or.inr (hhead n rest rfl (by omega))
    have hmax : max lo n.key.lower = c := by
      rcases hcl with h | h
      · omega
      · omega
    obtain ⟨e, he⟩ : ∃ e, min hi n.key.upper = e := ⟨_, rfl⟩
    have hpart : (Intv.ivl lo hi).intersection n.key = Intv.ivl c e := by
      rw [Intv.intersection_ivl_of_nonempty lo hi n.key hwfn.1, hmax, he,
          if_pos (by omega)]
    have hce : c ≤ e := by omega
    have hehi : e ≤ hi := by omega
    have hpe : ((Intv.ivl lo hi).intersection n.key).isEmpty = false := by
      rw [hpart]
      exact Intv.isEmpty_ivl _ _
    obtain ⟨haccW, haccR, hcap⟩ := hok n (List.mem_cons_self n rest) hpe
    have hks : n.key.size = n.key.upper + 1 - n.key.lower := Intv.size_of_nonempty _ hwfn.1
    obtain ⟨bo, hbo⟩ : ∃ bo, c - n.key.lower + n.val.offset = bo := ⟨_, rfl⟩
    obtain ⟨k, hk⟩ : ∃ k, e + 1 - c = k := ⟨_, rfl⟩
    have hbk : bo + k ≤ (s n.val.buffer).length := by omega
    have hkv : k ≤ vals.length := by omega
    have hk1 : 1 ≤ k := by omega
    have hpl : ((Intv.ivl lo hi).intersection n.key).lower = c := by
      rw [hpart, Intv.lower_ivl]
    have hpsz : ((Intv.ivl lo hi).intersection n.key).size = k := by
      rw [hpart, Intv.size_ivl, hk]
    have hpbase : partBase (Intv.ivl lo hi) n = bo := by
      show (partOf (Intv.ivl lo hi) n).lower - n.key.lower + n.val.offset = bo
      show ((Intv.ivl lo hi).intersection n.key).lower - n.key.lower + n.val.offset = bo
      rw [hpl, hbo]
    have hpsize' : (partOf (Intv.ivl lo hi) n).size = k := hpsz
    have hppe : (partOf (Intv.ivl lo hi) n).isEmpty = false := hpe
    have hGH : ∀ retval : Intv,
        ((retval = Intv.emp ∧ c = lo) ∨ (retval = Intv.ivl lo (c - 1) ∧ lo + 1 ≤ c)) →
        ((((Intv.ivl lo hi).intersection n.key).isEmpty ||
          (!retval.isEmpty &&
            retval.upper + 1 != ((Intv.ivl lo hi).intersection n.key).lower)) = false) ∧
        retval.hull (Intv.ivl c e) = Intv.ivl lo e := by
      intro retval hinv
      rcases hinv with ⟨hr, hclo⟩ | ⟨hr, hclo⟩
      · subst hr
        refine ⟨by rw [hpe]; rfl, ?_⟩
        rw [Intv.hull_emp_left, hclo]
      · subst hr
        constructor
        · rw [hpe, hpl]
          simp only [Intv.isEmpty_ivl, Intv.upper_ivl, Bool.not_false, Bool.true_and,
            Bool.false_or]
          rw [bne_eq_false_iff_eq]
          omega
        · exact hull_contig_ivl lo (c - 1) c e (by omega) (by omega) (by omega)
    obtain ⟨hguardW, hhullW⟩ := hGH retvalW hinvW
    have hfullW : ((memOps V).writeB s n.val.buffer
        (((Intv.ivl lo hi).intersection n.key).lower - n.key.lower + n.val.offset)
        ((Intv.ivl lo hi).intersection n.key).size vals).1 =
        ((Intv.ivl lo hi).intersection n.key).size := by
      rw [hpl, hpsz, hbo]
      show (bufWriteL (s n.val.buffer) bo k vals).1 = k
      exact memWrite_count _ _ _ _ hbk
    rw [writeLoop_cons_go (memOps V) (Intv.ivl lo hi) WRITABLE 0 n rest retvalW vals s
        haccW hguardW hfullW, hpsz, hpl, hpart, hhullW, hbo]
    rw [show ((memOps V).writeB s n.val.buffer bo k vals).2 =
        updStore s n.val.buffer (bufWriteL (s n.val.buffer) bo k vals).2 from rfl]
    have hs1len := memWrite_store_length s n.val.buffer bo k vals hbk hkv
    have hs1out := memWrite_store_get_out s n.val.buffer bo k vals hbk hkv
    have hs1slice := memWrite_store_slice s n.val.buffer bo k vals hbk hkv
    by_cases hA : hi ≤ n.key.upper
    · -- the head node reaches the end of the window
      have heA : e = hi := by omega
      have hkA : k = vals.length := by omega
      have hdropA : vals.drop k = [] := by
        rw [hkA, List.drop_length]
      have htakeA : vals.take k = vals := by
        rw [hkA, List.take_length]
      have hrestEmpty : ∀ n' rest', rest = n' :: rest' →
          ((Intv.ivl lo hi).intersection n'.key).isEmpty = true := by
        intro n' rest' hr
        have hlt : n.key.upper < n'.key.lower :=
          (List.pairwise_cons.mp hord).1 n' (by rw [hr]; exact List.mem_cons_self _ _)
        exact Intv.intersection_empty_of_gap lo hi n'.key (by omega)
      rw [writeLoop_stop_first (memOps V) (Intv.ivl lo hi) WRITABLE 0 rest
          (Intv.ivl lo e) (vals.drop k)
          (updStore s n.val.buffer (bufWriteL (s n.val.buffer) bo k vals).2) hrestEmpty]
      refine ⟨?_, ?_, ?_, ?_⟩
      · show Intv.ivl lo e = Intv.ivl lo hi
        rw [heA]
      · intro bid
        exact hs1len bid
      · intro bid j hexc
        apply hs1out
        by_cases hb : n.val.buffer = bid
        · right
          have h := hexc n (List.mem_cons_self _ _) hppe hb
          rw [hpbase, hpsize'] at h
          exact h
        · exact Or.inl (fun hbid => hb hbid.symm)
      · intro retvalR acc hinvR
        obtain ⟨hguardR, hhullR⟩ := hGH retvalR hinvR
        have hfullR : ((memOps V).readB
            (updStore s n.val.buffer (bufWriteL (s n.val.buffer) bo k vals).2)
            n.val.buffer
            (((Intv.ivl lo hi).intersection n.key).lower - n.key.lower + n.val.offset)
            ((Intv.ivl lo hi).intersection n.key).size).1 =
            ((Intv.ivl lo hi).intersection n.key).size := by
          rw [hpl, hpsz, hbo]
          exact memRead_full _ _ _ (by rw [hs1len]; exact hbk)
        rw [readLoop_cons_go (memOps V)
            (updStore s n.val.buffer (bufWriteL (s n.val.buffer) bo k vals).2)
            (Intv.ivl lo hi) READABLE 0 n rest retvalR acc haccR hguardR hfullR,
            hpsz, hpl, hpart, hhullR, hbo]
        rw [show ((memOps V).readB
            (updStore s n.val.buffer (bufWriteL (s n.val.buffer) bo k vals).2)
            n.val.buffer bo k).2 =
            (bufReadL ((updStore s n.val.buffer
              (bufWriteL (s n.val.buffer) bo k vals).2) n.val.buffer) bo k).2 from rfl]
        rw [memRead_vals _ _ _ (by rw [hs1len]; exact hbk), hs1slice, htakeA]
        rw [readLoop_stop_first (memOps V)
            (updStore s n.val.buffer (bufWriteL (s n.val.buffer) bo k vals).2)
            (Intv.ivl lo hi) READABLE 0 rest (Intv.ivl lo e) (acc ++ vals) hrestEmpty]
        rw [heA]
    · -- the head node ends before the window: recurse on the tail
      have heB : e = n.key.upper := by omega
      have hcovB : coversFrom (Intv.ivl lo hi) rest (n.key.upper + 1) = true := by
        rcases hnext with h | h
        · omega
        · exact h
      have hokR : ∀ n' ∈ rest, (partOf (Intv.ivl lo hi) n').isEmpty = false →
          isAccessAllowed n'.val.accessibility WRITABLE 0 = true ∧
          isAccessAllowed n'.val.accessibility READABLE 0 = true ∧
          n'.val.offset + n'.key.size ≤
            ((updStore s n.val.buffer (bufWriteL (s n.val.buffer) bo k vals).2)
              n'.val.buffer).length := by
        intro n' hm hpe'
        obtain ⟨h1, h2, h3⟩ := hok n' (List.mem_cons_of_mem _ hm) hpe'
        refine ⟨h1, h2, ?_⟩
        rw [hs1len]
        exact h3
      have hlenR : (vals.drop k).length = hi + 1 - (n.key.upper + 1) := by
        rw [List.length_drop]
        omega
      have hheadR : ∀ n' rest', rest = n' :: rest' → lo < n.key.upper + 1 →
          n'.key.lower = n.key.upper + 1 := by
        intro n' rest' hr _
        have hlt : n.key.upper < n'.key.lower :=
          (List.pairwise_cons.mp hord).1 n' (by rw [hr]; exact List.mem_cons_self _ _)
        have hcovR := hcovB
        rw [hr] at hcovR
        simp only [coversFrom, Bool.and_eq_true] at hcovR
        have := (Intv.contains_true hcovR.1).1
        omega
      have IH := ih (n.key.upper + 1) (vals.drop k)
        (updStore s n.val.buffer (bufWriteL (s n.val.buffer) bo k vals).2)
        (by omega) (by omega) hcovB
        (fun n' hm => hwf n' (List.mem_cons_of_mem _ hm))
        (List.pairwise_cons.mp hord).2
        (List.pairwise_cons.mp hdisj).2
        hokR hlenR hheadR
      have hinvW' : (Intv.ivl lo e = Intv.emp ∧ n.key.upper + 1 = lo) ∨
          (Intv.ivl lo e = Intv.ivl lo (n.key.upper + 1 - 1) ∧
            lo + 1 ≤ n.key.upper + 1) := by
        right
        refine ⟨?_, by omega⟩
        rw [heB, Nat.add_sub_cancel]
      obtain ⟨IH1, IH2, IH3, IH4⟩ := IH (Intv.ivl lo e) hinvW'
      refine ⟨IH1, ?_, ?_, ?_⟩
      · intro bid
        rw [IH2 bid, hs1len bid]
      · intro bid j hexc
        rw [IH3 bid j ?_]
        · apply hs1out
          by_cases hb : n.val.buffer = bid
          · right
            have h := hexc n (List.mem_cons_self _ _) hppe hb
            rw [hpbase, hpsize'] at h
            exact h
          · exact Or.inl (fun hbid => hb hbid.symm)
        · intro n' hm hpe' hb
          exact hexc n' (List.mem_cons_of_mem _ hm) hpe' hb
      · intro retvalR acc hinvR
        obtain ⟨hguardR, hhullR⟩ := hGH retvalR hinvR
        have hs2len : ∀ bid,
            (((writeLoop (memOps V) (Intv.ivl lo hi) WRITABLE 0 rest (Intv.ivl lo e)
              (vals.drop k)
              (updStore s n.val.buffer (bufWriteL (s n.val.buffer) bo k vals).2)).2
              bid).length) = (s bid).length := by
          intro bid
          rw [IH2 bid, hs1len bid]
        have hfullR : ((memOps V).readB
            ((writeLoop (memOps V) (Intv.ivl lo hi) WRITABLE 0 rest (Intv.ivl lo e)
              (vals.drop k)
              (updStore s n.val.buffer (bufWriteL (s n.val.buffer) bo k vals).2)).2)
            n.val.buffer
            (((Intv.ivl lo hi).intersection n.key).lower - n.key.lower + n.val.offset)
            ((Intv.ivl lo hi).intersection n.key).size).1 =
            ((Intv.ivl lo hi).intersection n.key).size := by
          rw [hpl, hpsz, hbo]
          exact memRead_full _ _ _ (by rw [hs2len]; exact hbk)
        rw [readLoop_cons_go (memOps V) _ (Intv.ivl lo hi) READABLE 0 n rest retvalR acc
            haccR hguardR hfullR, hpsz, hpl, hpart, hhullR, hbo]
        have hvalsB : ((memOps V).readB
            ((writeLoop (memOps V) (Intv.ivl lo hi) WRITABLE 0 rest (Intv.ivl lo e)
              (vals.drop k)
              (updStore s n.val.buffer (bufWriteL (s n.val.buffer) bo k vals).2)).2)
            n.val.buffer bo k).2 = vals.take k := by
          rw [show ((memOps V).readB
              ((writeLoop (memOps V) (Intv.ivl lo hi) WRITABLE 0 rest (Intv.ivl lo e)
                (vals.drop k)
                (updStore s n.val.buffer (bufWriteL (s n.val.buffer) bo k vals).2)).2)
              n.val.buffer bo k).2 =
              (bufReadL (((writeLoop (memOps V) (Intv.ivl lo hi) WRITABLE 0 rest
                (Intv.ivl lo e) (vals.drop k)
                (updStore s n.val.buffer (bufWriteL (s n.val.buffer) bo k vals).2)).2)
                n.val.buffer) bo k).2 from rfl]
          rw [memRead_vals _ _ _ (by rw [hs2len]; exact hbk)]
          rw [← hs1slice]
          apply slice_congr
          · rw [hs2len]
            exact hbk
          · rw [hs1len]
            exact hbk
          · intro j hj1 hj2
            apply IH3 n.val.buffer j
            intro n' hm hpe' hb
            have hd := (List.pairwise_cons.mp hdisj).1 n' hm
            rcases hd with hd | hd | hd
            · exact absurd hb.symm hd
            · left
              rw [hpbase, hpsize'] at hd
              omega
            · right
              rw [hpbase] at hd
              omega
        rw [hvalsB]
        rw [IH4 (Intv.ivl lo e) (acc ++ vals.take k) hinvW']
        rw [List.append_assoc, List.take_append_drop]

/-! ### Claim theorems -/

/-- C1 (failing input): on the map holding the single node `[10,20]` with
accessibility 0, `available(10, READABLE, 0)` returns the non-empty interval
`[10,20]` even though the node containing the start address fails the access
filter: the source loop applies `isAccessAllowed` only from `++found` on, so
the first node's accessibility is never checked, contradicting the claim (and
the function's own documentation, which promises an empty interval when start
is not mapped and accessible). -/
theorem available_first_node_access_unchecked :
    AddressMap.available [⟨Intv.ivl 10 20, ⟨0, 0, 0⟩⟩] 10 READABLE 0 = Intv.ivl 10 20 ∧
    isAccessAllowed 0 READABLE 0 = false := by
  constructor
  · rfl
  · decide

/-- C2: if the buffer transfer at the node currently being visited is short
(the count returned differs from the intersection size), then the read or
write loop returns exactly the previously accumulated interval extended by the
short count starting at the intersection's lower bound, together with the data
moved so far; the right-hand sides do not mention `rest`, so no later node is
visited or transferred from. -/
theorem addressMap_short_transfer_stops {V S : Type} (ops : BufferOps V S) (s : S)
    (w : Intv) (req proh : Nat) (n : MapNode) (rest : List MapNode)
    (retval : Intv) (acc vals : List V)
    (hacc : isAccessAllowed n.val.accessibility req proh = true)
    (hguard : ((w.intersection n.key).isEmpty ||
       (!retval.isEmpty && retval.upper + 1 != (w.intersection n.key).lower)) = false) :
    ((ops.readB s n.val.buffer
        ((w.intersection n.key).lower - n.key.lower + n.val.offset)
        (w.intersection n.key).size).1 ≠ (w.intersection n.key).size →
      readLoop ops s w req proh (n :: rest) retval acc =
        (retval.hull (Intv.baseSize (w.intersection n.key).lower
            (ops.readB s n.val.buffer
              ((w.intersection n.key).lower - n.key.lower + n.val.offset)
              (w.intersection n.key).size).1),
         acc ++ (ops.readB s n.val.buffer
              ((w.intersection n.key).lower - n.key.lower + n.val.offset)
              (w.intersection n.key).size).2)) ∧
    ((ops.writeB s n.val.buffer
        ((w.intersection n.key).lower - n.key.lower + n.val.offset)
        (w.intersection n.key).size vals).1 ≠ (w.intersection n.key).size →
      writeLoop ops w req proh (n :: rest) retval vals s =
        (retval.hull (Intv.baseSize (w.intersection n.key).lower
            (ops.writeB s n.val.buffer
              ((w.intersection n.key).lower - n.key.lower + n.val.offset)
              (w.intersection n.key).size vals).1),
         (ops.writeB s n.val.buffer
              ((w.intersection n.key).lower - n.key.lower + n.val.offset)
              (w.intersection n.key).size vals).2)) := by
  constructor <;> intro hshort
  · rw [readLoop]
    simp only [hacc, Bool.not_true, hguard, bne_iff_ne, ne_eq, hshort,
      not_false_eq_true, if_true]
    rfl
  · rw [writeLoop]
    simp only [hacc, Bool.not_true, hguard, bne_iff_ne, ne_eq, hshort,
      not_false_eq_true, if_true]
    rfl

/-- C2 witness: a node `[0,5]` backed by a 2-value buffer produces a short read
of 2 out of 6 requested values; the loop stops there even though a later node
exists. -/
theorem addressMap_short_transfer_stops_witness :
    readLoop (memOps Nat) (fun _ => [7, 8]) (Intv.ivl 0 5) 0 0
        [⟨Intv.ivl 0 5, ⟨0, 0, 0⟩⟩, ⟨Intv.ivl 6 9, ⟨1, 0, 0⟩⟩] Intv.emp [] =
      (Intv.ivl 0 1, [7, 8]) :=
  (addressMap_short_transfer_stops (memOps Nat) (fun _ => [7, 8]) (Intv.ivl 0 5) 0 0
      ⟨Intv.ivl 0 5, ⟨0, 0, 0⟩⟩ [⟨Intv.ivl 6 9, ⟨1, 0, 0⟩⟩] Intv.emp [] [1, 2, 3]
      (by decide) (by decide)).1 (by decide)

/-- C3: under the asserted preconditions (both intervals non-empty and
address-contiguous), the merge policy answers true exactly when the two
segments have equal accessibility, reference the identical buffer, and the
right segment's offset continues the left segment's buffer slice. -/
theorem segmentMergePolicy_merge_iff (li ri : Intv) (ls rs : Segment)
    (hl : li.isEmpty = false) (hr : ri.isEmpty = false)
    (hadj : li.upper + 1 = ri.lower) :
    SegmentMergePolicy.merge li ls ri rs = true ↔
      (ls.accessibility = rs.accessibility ∧ ls.buffer = rs.buffer ∧
       ls.offset + li.size = rs.offset) := by
  simp [SegmentMergePolicy.merge, Bool.and_eq_true, and_assoc]

/-- C3 witness: two contiguous one-buffer slices with equal accessibility and
contiguous offsets merge. -/
theorem segmentMergePolicy_merge_iff_witness :
    SegmentMergePolicy.merge (Intv.ivl 0 4) ⟨1, 0, 6⟩ (Intv.ivl 5 9) ⟨1, 5, 6⟩ = true :=
  (segmentMergePolicy_merge_iff (Intv.ivl 0 4) (Intv.ivl 5 9) ⟨1, 0, 6⟩ ⟨1, 5, 6⟩
      rfl rfl rfl).mpr ⟨rfl, rfl, by decide⟩

/-- C4: for a split point strictly inside a non-empty interval, the returned
segment advances the offset by `splitPoint - interval.lower` and keeps the
buffer reference and the complete accessibility word (hence also the
caller-defined bits 8-31) of the original segment; the policy computes a copy,
leaving the argument segment untouched. -/
theorem segmentMergePolicy_split_spec (i : Intv) (s : Segment) (p : Nat)
    (hne : i.isEmpty = false) (h1 : i.lower < p) (h2 : p ≤ i.upper) :
    (SegmentMergePolicy.split i s p).offset = s.offset + (p - i.lower) ∧
    (SegmentMergePolicy.split i s p).buffer = s.buffer ∧
    (SegmentMergePolicy.split i s p).accessibility = s.accessibility := by
  refine ⟨?_, rfl, rfl⟩
  simp only [SegmentMergePolicy.split]
  omega

/-- C4 witness: splitting `[0,9]` at 4 advances the offset 7 to 11 and keeps
buffer identity and accessibility (including user-defined high bits). -/
theorem segmentMergePolicy_split_spec_witness :
    (SegmentMergePolicy.split (Intv.ivl 0 9) ⟨2, 7, 11259136⟩ 4).offset =
        7 + (4 - (Intv.ivl 0 9).lower) ∧
    (SegmentMergePolicy.split (Intv.ivl 0 9) ⟨2, 7, 11259136⟩ 4).buffer = 2 ∧
    (SegmentMergePolicy.split (Intv.ivl 0 9) ⟨2, 7, 11259136⟩ 4).accessibility = 11259136 :=
  segmentMergePolicy_split_spec (Intv.ivl 0 9) ⟨2, 7, 11259136⟩ 4 rfl
    (by decide) (by decide)

/-- C5: for both read and write, an empty request returns an empty result (and
an untouched store); the traversal stops at the first node that fails the
access filter, has an empty intersection with the request, or is not
contiguous with the accumulated result; and the returned interval is a prefix
run of the requested interval (possibly empty, possibly smaller than
requested) whose size equals the exact number of values transferred (shown
for read, where the values delivered are observable), provided the buffers
respect the transfer contract. -/
theorem addressMap_read_write_traversal_spec {V S : Type} (ops : BufferOps V S) (s : S)
    (m : List MapNode) (w : Intv) (req proh : Nat) (vals : List V) :
    (w.isEmpty = true →
       AddressMap.read ops s m w req proh = (Intv.emp, ([] : List V)) ∧
       AddressMap.write ops s m w req proh vals = (Intv.emp, s)) ∧
    (∀ (n : MapNode) (rest : List MapNode) (retval : Intv) (acc vs : List V) (s₀ : S),
       (isAccessAllowed n.val.accessibility req proh = false ∨
        ((w.intersection n.key).isEmpty ||
         (!retval.isEmpty && retval.upper + 1 != (w.intersection n.key).lower)) = true) →
       readLoop ops s₀ w req proh (n :: rest) retval acc = (retval, acc) ∧
       writeLoop ops w req proh (n :: rest) retval vs s₀ = (retval, s₀)) ∧
    ((∀ bid off k, (ops.readB s bid off k).1 ≤ k) →
       (AddressMap.read ops s m w req proh).1 = Intv.emp ∨
       ∃ c, (AddressMap.read ops s m w req proh).1 = Intv.ivl w.lower c ∧
         w.lower ≤ c ∧ c ≤ w.upper) ∧
    ((∀ (s₀ : S) (bid off k : Nat) (vs : List V), (ops.writeB s₀ bid off k vs).1 ≤ k) →
       (AddressMap.write ops s m w req proh vals).1 = Intv.emp ∨
       ∃ c, (AddressMap.write ops s m w req proh vals).1 = Intv.ivl w.lower c ∧
         w.lower ≤ c ∧ c ≤ w.upper) ∧
    ((∀ bid off k, (ops.readB s bid off k).2.length = (ops.readB s bid off k).1) →
       (AddressMap.read ops s m w req proh).2.length =
         (AddressMap.read ops s m w req proh).1.size) := by
  refine ⟨?_, ?_, ?_, ?_, ?_⟩
  · intro h
    constructor
    · rw [AddressMap.read, if_pos h]
    · rw [AddressMap.write, if_pos h]
  · intro n rest retval acc vs s₀ hdis
    rcases hdis with hacc | hguard
    · exact ⟨readLoop_cons_stop_access ops s₀ w req proh n rest retval acc hacc,
        writeLoop_cons_stop_access ops w req proh n rest retval vs s₀ hacc⟩
    · by_cases hacc : isAccessAllowed n.val.accessibility req proh = true
      · exact ⟨readLoop_cons_stop_guard ops s₀ w req proh n rest retval acc hacc hguard,
          writeLoop_cons_stop_guard ops w req proh n rest retval vs s₀ hacc hguard⟩
      · have hacc' : isAccessAllowed n.val.accessibility req proh = false := by
          simpa using hacc
        exact ⟨readLoop_cons_stop_access ops s₀ w req proh n rest retval acc hacc',
          writeLoop_cons_stop_access ops w req proh n rest retval vs s₀ hacc'⟩
  · intro hops
    by_cases hw : w.isEmpty = true
    · left
      rw [AddressMap.read, if_pos hw]
    · rw [AddressMap.read, if_neg hw]
      exact readLoop_shape ops s w req proh hops (findFrom m w.lower) Intv.emp []
        (Or.inl ⟨rfl, fun n rest h => findFrom_head_contains m w.lower n rest h⟩)
  · intro hops
    by_cases hw : w.isEmpty = true
    · left
      rw [AddressMap.write, if_pos hw]
    · rw [AddressMap.write, if_neg hw]
      exact writeLoop_shape ops w req proh hops (findFrom m w.lower) Intv.emp vals s
        (Or.inl ⟨rfl, fun n rest h => findFrom_head_contains m w.lower n rest h⟩)
  · intro hops
    by_cases hw : w.isEmpty = true
    · rw [AddressMap.read, if_pos hw]
      rfl
    · rw [AddressMap.read, if_neg hw]
      exact readLoop_length ops s w req proh hops (findFrom m w.lower) Intv.emp []
        rfl (Or.inl rfl)

/-- C5 witness: a two-node map read over its full range transfers every value
(the result length equals the result interval size), the empty request returns
the empty result, and a node failing the access filter stops the loop without
touching the accumulator. -/
theorem addressMap_read_write_traversal_spec_witness :
    AddressMap.read (memOps Nat) (fun _ => [7, 8, 9, 10])
        [⟨Intv.ivl 0 1, ⟨0, 0, 0⟩⟩, ⟨Intv.ivl 2 5, ⟨1, 0, 0⟩⟩] Intv.emp 0 0 =
      (Intv.emp, []) ∧
    (AddressMap.read (memOps Nat) (fun _ => [7, 8, 9, 10])
        [⟨Intv.ivl 0 1, ⟨0, 0, 0⟩⟩, ⟨Intv.ivl 2 5, ⟨1, 0, 0⟩⟩] (Intv.ivl 0 5) 0 0).2.length =
      (AddressMap.read (memOps Nat) (fun _ => [7, 8, 9, 10])
        [⟨Intv.ivl 0 1, ⟨0, 0, 0⟩⟩, ⟨Intv.ivl 2 5, ⟨1, 0, 0⟩⟩] (Intv.ivl 0 5) 0 0).1.size ∧
    readLoop (memOps Nat) (fun _ => [7, 8, 9, 10]) (Intv.ivl 0 5) READABLE 0
        [⟨Intv.ivl 0 1, ⟨0, 0, 0⟩⟩] (Intv.ivl 0 0) [7] = (Intv.ivl 0 0, [7]) :=
  ⟨(addressMap_read_write_traversal_spec (memOps Nat) (fun _ => [7, 8, 9, 10])
      [⟨Intv.ivl 0 1, ⟨0, 0, 0⟩⟩, ⟨Intv.ivl 2 5, ⟨1, 0, 0⟩⟩] Intv.emp 0 0 []).1 rfl |>.1,
   (addressMap_read_write_traversal_spec (memOps Nat) (fun _ => [7, 8, 9, 10])
      [⟨Intv.ivl 0 1, ⟨0, 0, 0⟩⟩, ⟨Intv.ivl 2 5, ⟨1, 0, 0⟩⟩] (Intv.ivl 0 5) 0 0
      []).2.2.2.2 (fun bid off k => by simp [memOps, bufReadL]),
   ((addressMap_read_write_traversal_spec (memOps Nat) (fun _ => [7, 8, 9, 10])
      [⟨Intv.ivl 0 1, ⟨0, 0, 0⟩⟩, ⟨Intv.ivl 2 5, ⟨1, 0, 0⟩⟩] (Intv.ivl 0 5) READABLE 0
      []).2.1 ⟨Intv.ivl 0 1, ⟨0, 0, 0⟩⟩ [] (Intv.ivl 0 0) [7] []
      (fun _ => [7, 8, 9, 10]) (Or.inl (by decide))).1⟩

/-- C6 counterexample: the claim fails when two addresses of the range alias
the same buffer slot.  The map holds two well-formed, readable+writable nodes
`[0,0]` and `[1,1]`, both pointing at offset 0 of the same one-value buffer
(each segment's slice is fully backed, and the in-memory buffer stores values
faithfully), and the range `[0,1]` is fully covered; yet writing `[1, 2]` over
`[0,1]` (a full transfer, as the returned interval shows) and reading `[0,1]`
back yields `[2, 2] ≠ [1, 2]`: the second write clobbered the slot the first
address maps to. -/
theorem roundTrip_aliasing_counterexample :
    mapWF [⟨Intv.ivl 0 0, ⟨0, 0, 6⟩⟩, ⟨Intv.ivl 1 1, ⟨0, 0, 6⟩⟩] ∧
    coversFrom (Intv.ivl 0 1)
      [⟨Intv.ivl 0 0, ⟨0, 0, 6⟩⟩, ⟨Intv.ivl 1 1, ⟨0, 0, 6⟩⟩] 0 = true ∧
    (∀ n ∈ [(⟨Intv.ivl 0 0, ⟨0, 0, 6⟩⟩ : MapNode), ⟨Intv.ivl 1 1, ⟨0, 0, 6⟩⟩],
       isAccessAllowed n.val.accessibility WRITABLE 0 = true ∧
       isAccessAllowed n.val.accessibility READABLE 0 = true ∧
       n.val.offset + n.key.size ≤ ((fun _ => [0]) n.val.buffer : List Nat).length) ∧
    (AddressMap.write (memOps Nat) (fun _ => [0])
      [⟨Intv.ivl 0 0, ⟨0, 0, 6⟩⟩, ⟨Intv.ivl 1 1, ⟨0, 0, 6⟩⟩]
      (Intv.ivl 0 1) WRITABLE 0 [1, 2]).1 = Intv.ivl 0 1 ∧
    (AddressMap.read (memOps Nat)
      (AddressMap.write (memOps Nat) (fun _ => [0])
        [⟨Intv.ivl 0 0, ⟨0, 0, 6⟩⟩, ⟨Intv.ivl 1 1, ⟨0, 0, 6⟩⟩]
        (Intv.ivl 0 1) WRITABLE 0 [1, 2]).2
      [⟨Intv.ivl 0 0, ⟨0, 0, 6⟩⟩, ⟨Intv.ivl 1 1, ⟨0, 0, 6⟩⟩]
      (Intv.ivl 0 1) READABLE 0).2 = [2, 2] ∧
    ([2, 2] : List Nat) ≠ [1, 2] := by
  refine ⟨⟨by decide, ?_⟩, by decide, by decide, by decide, by decide, by decide⟩
  simp [List.pairwise_cons]
  decide

/-- C6 (amended): write-then-read round-trips whenever the range is fully
covered (from `find(lo)` on, contiguously to `hi`) by well-formed
writable+readable segments whose buffers can service their whole slices, and
additionally the segments' buffer regions for the range are pairwise disjoint
(no aliasing inside the range); then the write transfers the whole range and
reading the same range back returns exactly the written values. -/
theorem addressMap_write_read_roundTrip {V : Type} (s : Nat → List V)
    (m : List MapNode) (lo hi : Nat) (vals : List V)
    (hlh : lo ≤ hi)
    (hwf : mapWF m)
    (hcov : coversFrom (Intv.ivl lo hi) (findFrom m lo) lo = true)
    (hdisj : (findFrom m lo).Pairwise (regionsDisjoint (Intv.ivl lo hi)))
    (hok : ∀ n ∈ findFrom m lo, (partOf (Intv.ivl lo hi) n).isEmpty = false →
       isAccessAllowed n.val.accessibility WRITABLE 0 = true ∧
       isAccessAllowed n.val.accessibility READABLE 0 = true ∧
       n.val.offset + n.key.size ≤ (s n.val.buffer).length)
    (hlen : vals.length = hi + 1 - lo) :
    (AddressMap.write (memOps V) s m (Intv.ivl lo hi) WRITABLE 0 vals).1 =
      Intv.ivl lo hi ∧
    AddressMap.read (memOps V)
        (AddressMap.write (memOps V) s m (Intv.ivl lo hi) WRITABLE 0 vals).2 m
        (Intv.ivl lo hi) READABLE 0 = (Intv.ivl lo hi, vals) := by
  have haux := writeReadAux lo hi (findFrom m lo) lo vals s (Nat.le_refl lo) hlh hcov
    (fun n hm => hwf.1 n ((findFrom_sublist m lo).subset hm))
    (hwf.2.sublist (findFrom_sublist m lo))
    hdisj hok hlen
    (fun n rest h hlt => absurd hlt (by omega))
    Intv.emp (Or.inl ⟨rfl, rfl⟩)
  obtain ⟨h1, _, _, h4⟩ := haux
  have hw : AddressMap.write (memOps V) s m (Intv.ivl lo hi) WRITABLE 0 vals =
      writeLoop (memOps V) (Intv.ivl lo hi) WRITABLE 0 (findFrom m lo) Intv.emp vals s := by
    rw [AddressMap.write, if_neg (by simp [Intv.isEmpty_ivl])]
    rfl
  constructor
  · rw [hw]
    exact h1
  · have hr := h4 Intv.emp [] (Or.inl ⟨rfl, rfl⟩)
    rw [hw, AddressMap.read, if_neg (by simp [Intv.isEmpty_ivl])]
    simpa [Intv.lower_ivl] using hr

/-- C6 witness: a range covered by two distinct buffers round-trips: writing
`[1,2,3,4]` over `[0,3]` and reading it back returns `[1,2,3,4]`. -/
theorem addressMap_write_read_roundTrip_witness :
    (AddressMap.write (memOps Nat) (fun _ => [9, 9])
      [⟨Intv.ivl 0 1, ⟨0, 0, 6⟩⟩, ⟨Intv.ivl 2 3, ⟨1, 0, 6⟩⟩]
      (Intv.ivl 0 3) WRITABLE 0 [1, 2, 3, 4]).1 = Intv.ivl 0 3 ∧
    AddressMap.read (memOps Nat)
      (AddressMap.write (memOps Nat) (fun _ => [9, 9])
        [⟨Intv.ivl 0 1, ⟨0, 0, 6⟩⟩, ⟨Intv.ivl 2 3, ⟨1, 0, 6⟩⟩]
        (Intv.ivl 0 3) WRITABLE 0 [1, 2, 3, 4]).2
      [⟨Intv.ivl 0 1, ⟨0, 0, 6⟩⟩, ⟨Intv.ivl 2 3, ⟨1, 0, 6⟩⟩]
      (Intv.ivl 0 3) READABLE 0 = (Intv.ivl 0 3, [1, 2, 3, 4]) :=
  addressMap_write_read_roundTrip (fun _ => [9, 9])
    [⟨Intv.ivl 0 1, ⟨0, 0, 6⟩⟩, ⟨Intv.ivl 2 3, ⟨1, 0, 6⟩⟩] 0 3 [1, 2, 3, 4]
    (by decide) ⟨by decide, by simp [List.pairwise_cons]; decide⟩ (by decide)
    (by decide) (by decide) (by decide)

/-- C7: `MappedBuffer::available` counts the values from `address` to the end
of the mapping (0 at or past the end), and `read`/`write` transfer and return
exactly `min n (available address)` values starting at that position: `read`
delivers precisely that many values taken at `address`, `write` overwrites
precisely positions `address` to `address + count - 1` and leaves length and
all other positions unchanged. -/
theorem mappedBuffer_transfer_spec {V : Type} (b : MappedBuffer V) (vals : List V)
    (a n : Nat) (hvals : n ≤ vals.length) :
    (a < b.data.length → b.available a = b.data.length - a) ∧
    (b.data.length ≤ a → b.available a = 0) ∧
    (b.read a n).1 = min n (b.available a) ∧
    (b.read a n).2 = (b.data.drop a).take (min n (b.available a)) ∧
    (b.read a n).2.length = min n (b.available a) ∧
    (b.write vals a n).1 = min n (b.available a) ∧
    (b.write vals a n).2.data.length = b.data.length ∧
    (∀ i, i < min n (b.available a) → (b.write vals a n).2.data[a + i]? = vals[i]?) ∧
    (∀ j, j < a ∨ a + min n (b.available a) ≤ j →
       (b.write vals a n).2.data[j]? = b.data[j]?) := by
  have havail : b.available a = if a ≥ b.data.length then 0 else b.data.length - a := rfl
  by_cases hA : a < b.data.length
  · have havv : b.available a = b.data.length - a := by rw [havail, if_neg (by omega)]
    have hle : a + min n (b.available a) ≤ b.data.length := by rw [havv]; omega
    have hlen : (vals.take (min n (b.available a))).length = min n (b.available a) := by
      simp
      omega
    refine ⟨?_, ?_, rfl, rfl, ?_, rfl, ?_, ?_, ?_⟩
    · intro h
      exact havv
    · intro h
      omega
    · show ((b.data.drop a).take (min n (b.available a))).length = min n (b.available a)
      rw [List.length_take, List.length_drop, havv]
      omega
    · show (b.data.take a ++ vals.take (min n (b.available a)) ++
          b.data.drop (a + min n (b.available a))).length = b.data.length
      simp
      rw [havv] at hle ⊢
      omega
    · intro i hi
      show (b.data.take a ++ vals.take (min n (b.available a)) ++
          b.data.drop (a + min n (b.available a)))[a + i]? = vals[i]?
      rw [show a + min n (b.available a) = a + (vals.take (min n (b.available a))).length by
            rw [hlen]]
      rw [splice_getElem_inside _ _ _ _ (by omega) (by rw [hlen]; omega)]
      exact List.getElem?_take_of_lt (by omega)
    · intro j hj
      show (b.data.take a ++ vals.take (min n (b.available a)) ++
          b.data.drop (a + min n (b.available a)))[j]? = b.data[j]?
      rw [show a + min n (b.available a) = a + (vals.take (min n (b.available a))).length by
            rw [hlen]]
      exact splice_getElem_outside _ _ _ _ (by rw [hlen]; omega) (by rw [hlen]; omega)
  · have h0 : b.available a = 0 := by rw [havail, if_pos (by omega)]
    have hmin : min n (b.available a) = 0 := by rw [h0]; omega
    refine ⟨?_, ?_, rfl, rfl, ?_, rfl, ?_, ?_, ?_⟩
    · intro h
      omega
    · intro h
      exact h0
    · show ((b.data.drop a).take (min n (b.available a))).length = min n (b.available a)
      rw [hmin]
      simp
    · show (b.data.take a ++ vals.take (min n (b.available a)) ++
          b.data.drop (a + min n (b.available a))).length = b.data.length
      rw [hmin]
      simp
    · intro i hi
      rw [hmin] at hi
      omega
    · intro j hj
      show (b.data.take a ++ vals.take (min n (b.available a)) ++
          b.data.drop (a + min n (b.available a)))[j]? = b.data[j]?
      rw [hmin]
      simp [List.take_append_drop]

/-- C7 witness: a 4-value mapping read and written near its end transfers
exactly `min n (available a)` values. -/
theorem mappedBuffer_transfer_spec_witness :
    ((⟨[5, 6, 7, 8]⟩ : MappedBuffer Nat).available 1 = 4 - 1) ∧
    ((⟨[5, 6, 7, 8]⟩ : MappedBuffer Nat).read 1 7).1 = min 7 ((⟨[5, 6, 7, 8]⟩ :
        MappedBuffer Nat).available 1) :=
  ⟨(mappedBuffer_transfer_spec ⟨[5, 6, 7, 8]⟩ [1, 2, 3, 4, 5, 6, 7] 1 7 (by decide)).1
      (by decide),
   (mappedBuffer_transfer_spec ⟨[5, 6, 7, 8]⟩ [1, 2, 3, 4, 5, 6, 7] 1 7 (by decide)).2.2.1⟩

/-- C8: `NullBuffer::write` returns 0 for every source, address and count, is
total (no error path exists in the function), and leaves the buffer state --
in particular its logical size -- unchanged. -/
theorem nullBuffer_write_returns_zero {V : Type} (b : NullBuffer) (source : List V)
    (address n : Nat) : NullBuffer.write b source address n = (0, b) := rfl

/-- C9: `MappedBuffer::resize` raises the runtime error exactly when the
requested size differs from the current size, and is an accepting no-op (the
mapping is never touched; the model returns no modified buffer at all) when
the sizes agree. -/
theorem mappedBuffer_resize_spec {V : Type} (b : MappedBuffer V) (n : Nat) :
    (n ≠ b.data.length →
       b.resize n = Except.error "resizing not allowed for MappedBuffer") ∧
    (n = b.data.length → b.resize n = Except.ok ()) := by
  constructor <;> intro h <;> simp [MappedBuffer.resize, h]

/-- C9 witness: resizing a 2-value mapping to 3 faults, to 2 succeeds. -/
theorem mappedBuffer_resize_spec_witness :
    (⟨[0, 1]⟩ : MappedBuffer Nat).resize 3 =
        Except.error "resizing not allowed for MappedBuffer" ∧
    (⟨[0, 1]⟩ : MappedBuffer Nat).resize 2 = Except.ok () :=
  ⟨(mappedBuffer_resize_spec (⟨[0, 1]⟩ : MappedBuffer Nat) 3).1 (by decide),
   (mappedBuffer_resize_spec (⟨[0, 1]⟩ : MappedBuffer Nat) 2).2 (by decide)⟩

/-- C10: `NullBuffer::read` with a non-null destination stores the
default-constructed value into all `n` destination slots regardless of the
returned count, and returns `min (size - address) n` when `address < size` and
0 when `address ≥ size`; the number of slots written (`n`) can therefore
exceed the returned count. -/
theorem nullBuffer_read_spec {V : Type} [Inhabited V] (b : NullBuffer) (a n : Nat) :
    (NullBuffer.read V b a n).2 = List.replicate n (default : V) ∧
    (NullBuffer.read V b a n).2.length = n ∧
    (a < b.size_ → (NullBuffer.read V b a n).1 = min (b.size_ - a) n) ∧
    (b.size_ ≤ a → (NullBuffer.read V b a n).1 = 0) ∧
    (NullBuffer.read V b a n).1 ≤ n := by
  refine ⟨rfl, by simp [NullBuffer.read], ?_, ?_, ?_⟩
  · intro h
    simp [NullBuffer.read, NullBuffer.available, if_pos h]
  · intro h
    simp [NullBuffer.read, NullBuffer.available, if_neg (by omega : ¬ a < b.size_)]
  · simp [NullBuffer.read]

/-- C10 witness: a size-1 null buffer read with `n = 3` returns count 1 but
fills all 3 destination slots. -/
theorem nullBuffer_read_spec_witness :
    (NullBuffer.read Nat ⟨1⟩ 0 3).1 = min (1 - 0) 3 ∧
    (NullBuffer.read Nat ⟨1⟩ 0 3).2.length = 3 :=
  ⟨(nullBuffer_read_spec (V := Nat) ⟨1⟩ 0 3).2.2.1 (by decide),
   (nullBuffer_read_spec (V := Nat) ⟨1⟩ 0 3).2.1⟩

end Sawyer
